import Mathlib

set_option autoImplicit false
set_option maxRecDepth 8192

/-!
Shallow embedding of the `webdavProxy` repository (a WebDAV reverse proxy with
split-file sharding) and verification of its specification claims.

The embedding covers:
* the streaming upload proxy `FileObjectUploadProxy` of `src/webdav/fileObjectProxy.py`
  (`_data_generator`, `_upload_worker`, `write`, `close`, `get_status`);
* the streaming download proxy `FileObjectDownloadProxy` of the same file
  (`_locate_current_part`, `_open_current_part`, `_switch_to_next_part`, `read`, `seek`),
  both for split and non-split files;
* the PROPFIND split-file post-processing of `Utils.propfind` and `Utils.get_split_info`
  in `src/webdav/utils.py`;
* the metadata-cache invalidation `WebDAVProxy.clear_resource_meta` of
  `src/webdav/provider.py`;
* `WebDAVProxyNonCollection.delete` of `src/webdav/nonCollection.py`;
* the root-redirect middleware of `WebDAVServer` in `src/webdav/server.py`.

Bytes are modelled as `Nat`, chunks as `List Nat`.  HTTP traffic is modelled by
oracles: a function giving the backend's response (status code, or streamed chunk
list) for each request the code makes.  JSON documents are modelled by the little
inductive type `J` below, so that dictionary-key misspellings in the source are
faithfully visible.
-/

/-! ## Python string primitives

The source manipulates URLs and hrefs with `str.startswith`, `str.endswith`,
`str.split('.')`, `str.rsplit('/', 1)` and `str.zfill`.  Lean's builtin `String`
functions do not reduce inside the kernel, so we re-implement these operations on
the underlying character lists; each definition mirrors the Python semantics. -/

/-- Python `s.startswith(p)`. -/
def pyStartsWith (s p : String) : Bool :=
  decide (s.data.take p.data.length = p.data)

/-- Python `s.endswith(p)`. -/
def pyEndsWith (s p : String) : Bool :=
  decide (s.data.reverse.take p.data.length = p.data.reverse)

/-- Split a character list at every occurrence of `c` (Python `s.split(c)` for a
one-character separator: always returns at least one piece). -/
def splitOnChar (c : Char) : List Char → List (List Char)
  | [] => [[]]
  | x :: xs =>
    let r := splitOnChar c xs
    if x = c then [] :: r
    else (x :: r.headI) :: r.tail

/-- Python `key.split('.')[-1]` — the last `'.'`-separated component (the whole
string when it contains no dot). -/
def lastDotComponent (s : String) : String :=
  String.mk ((splitOnChar '.' s.data).getLastD [])

/-- Python `url.rsplit('/', 1)[0]` — everything before the last `'/'`. -/
def rsplitSlashFolder (s : String) : String :=
  String.mk (List.intercalate ['/'] ((splitOnChar '/' s.data).dropLast))

/-- Python `url.rsplit('/', 1)[1]` — everything after the last `'/'`. -/
def rsplitSlashName (s : String) : String :=
  String.mk ((splitOnChar '/' s.data).getLastD [])

/-- Python `str(n).zfill(3)`. -/
def zfill3 (n : Nat) : String :=
  let s := toString n
  String.mk (List.replicate (3 - s.length) '0') ++ s

/-- Python `s[:-k]` for `k ≤ len(s)` — drop the last `k` characters. -/
def dropRightStr (s : String) (k : Nat) : String :=
  String.mk (s.data.take (s.data.length - k))

/-! ## A small JSON model

Only what the source needs: numbers, strings, arrays and objects.  `dict.get`
becomes an association-list lookup. -/

inductive J where
  | num (n : Nat)
  | str (s : String)
  | arr (elems : List J)
  | obj (fields : List (String × J))

/-- Lookup of a key in an object's field list (Python `dict[k]` / `dict.get(k)`;
the source only builds dicts with distinct keys). -/
def assocFind : List (String × J) → String → Option J
  | [], _ => none
  | (k', v) :: rest, k => if k' = k then some v else assocFind rest k

/-- Python `j.get(k)` on a JSON object (`None` on non-objects / missing keys). -/
def jLookup : J → String → Option J
  | J.obj fs, k => assocFind fs k
  | _, _ => none

/-- Python `int(j.get(k, d))` when the value is a JSON number. -/
def jGetNat (j : J) (k : String) (d : Nat) : Nat :=
  match jLookup j k with
  | some (J.num n) => n
  | _ => d

/-- Python `j.get(k, d)` when the value is a JSON string. -/
def jGetStr (j : J) (k : String) (d : String) : String :=
  match jLookup j k with
  | some (J.str s) => s
  | _ => d

/-- Python `j.get(k)` when the value is a JSON array. -/
def jGetArr (j : J) (k : String) : Option (List J) :=
  match jLookup j k with
  | some (J.arr l) => some l
  | _ => none

/-! ## The streaming upload proxy (`FileObjectUploadProxy`)

`_upload_worker` loops: each iteration issues one PUT whose body is produced by
`_data_generator`, which dequeues chunks until it sees the `None` end-of-stream
sentinel or until adding the next chunk would push the current part past
`FILE_MAX_SIZE`; in the latter case the chunk is stashed in `self.temp_data` and
becomes the first chunk of the next part's body. -/

namespace Upload

/-- A chunk of bytes, as passed to `write`. -/
abbrev Chunk := List Nat

/-- Result of one run of `_data_generator` (one PUT body): the yielded chunks, the
final `self.uploaded_bytes`, the final `self.temp_data`, and the queue items not
yet consumed. -/
structure GenResult where
  body : List Chunk
  uploaded : Nat
  temp : Option Chunk
  rest : List (Option Chunk)

/-- The queue-consuming loop of `_data_generator` (`fileObjectProxy.py:387-409`),
starting with `self.temp_data is None` and `self.uploaded_bytes = up`.  A `none`
queue element is the end-of-stream sentinel.  The empty-queue case models the
point where `queue.get()` would block; it is not reached in any run modelled by
the theorems below (`close` pushes the sentinel first, or the run aborts
earlier). -/
def genLoop (maxSize : Nat) : List (Option Chunk) → Nat → GenResult
  | [], up => ⟨[], up, none, []⟩
  | none :: q, _up => ⟨[], _up, none, q⟩
  | some c :: q, up =>
    if up + c.length > maxSize then ⟨[], up, some c, q⟩
    else ⟨c :: (genLoop maxSize q (up + c.length)).body,
          (genLoop maxSize q (up + c.length)).uploaded,
          (genLoop maxSize q (up + c.length)).temp,
          (genLoop maxSize q (up + c.length)).rest⟩

/-- One full run of `_data_generator`: `self.temp_data` (if set) is examined
before the queue, and `self.uploaded_bytes` starts at `0` (the worker resets it
after each part). -/
def genRound (maxSize : Nat) (temp : Option Chunk) (queue : List (Option Chunk)) : GenResult :=
  match temp with
  | none => genLoop maxSize queue 0
  | some c =>
    if 0 + c.length > maxSize then ⟨[], 0, some c, queue⟩
    else ⟨c :: (genLoop maxSize queue c.length).body,
          (genLoop maxSize queue c.length).uploaded,
          (genLoop maxSize queue c.length).temp,
          (genLoop maxSize queue c.length).rest⟩

/-- Upload status constants (`STATUS_INIT/UPLOADING/DONE/ERROR`). -/
inductive UStatus where
  | init
  | uploading
  | done
  | error
deriving DecidableEq

/-- Static data of one upload: the backend URL, `FILE_MAX_SIZE`, and the
backend's responses.  `putStatus i` is the response status of the PUT for the
physical part with split-index `i` (`none` models `requests.put` raising an
exception); `splitinfoStatus` likewise for the final `.splitinfo` PUT. -/
structure WConfig where
  backendUrl : String
  maxSize : Nat
  putStatus : Nat → Option Nat
  splitinfoStatus : Option Nat

/-- Mutable state of the proxy visible to the worker, `write`, and `close`:
the queue contents, `temp_data`, `file_split_index`, `file_last`,
`total_uploaded_bytes`, the accumulated `splitFileList` entries, the PUTs
issued so far (url and body chunks, in order), the `.splitinfo` PUT if issued,
`upload_status` and `error_message`. -/
structure WState where
  queue : List (Option Chunk)
  temp : Option Chunk
  splitIndex : Nat
  fileLast : String
  totalUploaded : Nat
  splitFileList : List J
  puts : List (String × List Chunk)
  splitinfoPut : Option (String × J)
  status : UStatus
  errorMessage : Option String

/-- `file_folder = self.backend_url.rsplit('/', 1)[0]`. -/
def folderOf (cfg : WConfig) : String := rsplitSlashFolder cfg.backendUrl

/-- `file_name = self.backend_url.rsplit('/', 1)[1]`. -/
def nameOf (cfg : WConfig) : String := rsplitSlashName cfg.backendUrl

/-- One `splitFileList` entry, exactly as the dict literal at
`fileObjectProxy.py:433-436`: note the lowercase key `'filesize'`. -/
def mkEntry (fileName : String) (uploadedBytes : Nat) : J :=
  J.obj [("fileName", J.str fileName), ("filesize", J.num uploadedBytes)]

/-- The manifest JSON `self.file_split_info` with `meta.content_length` filled in
(`fileObjectProxy.py:364-369` and `446`). -/
def mkManifest (entries : List J) (total : Nat) : J :=
  J.obj [("splitFileList", J.arr entries), ("meta", J.obj [("content_length", J.num total)])]

/-- Whether a PUT status is accepted (`status_code in (200, 201, 204, 206)`). -/
def putOk (code : Nat) : Bool :=
  code = 200 ∨ code = 201 ∨ code = 204 ∨ code = 206

/-- The code after the upload loop (`fileObjectProxy.py:444-455`): when
`file_split_index > 1`, PUT the `.splitinfo` manifest; a rejected manifest PUT
sets `STATUS_ERROR`, but line 454 then unconditionally overwrites the status
with `STATUS_DONE`. -/
def afterLoop (cfg : WConfig) (st : WState) : WState :=
  if st.splitIndex > 1 then
    let manifest := mkManifest st.splitFileList st.totalUploaded
    let url := folderOf cfg ++ "/" ++ nameOf cfg ++ ".splitinfo"
    let st1 := { st with splitinfoPut := some (url, manifest) }
    match cfg.splitinfoStatus with
    | none =>
      { st1 with status := UStatus.error, errorMessage := some "exception" }
    | some code =>
      if putOk code then { st1 with status := UStatus.done }
      else
        { st1 with errorMessage := some ("上传分割信息失败，状态码: " ++ toString code),
                   status := UStatus.done }
  else { st with status := UStatus.done }

/-- The `while True` loop of `_upload_worker` (`fileObjectProxy.py:419-442`),
with explicit fuel (the theorems supply enough fuel for every modelled run).
An exception from `requests.put` aborts the whole worker, skipping the
post-loop code; a rejected status breaks out of the loop into `afterLoop`. -/
def workerLoop (cfg : WConfig) : Nat → WState → WState
  | 0, st => st
  | fuel + 1, st =>
    let g := genRound cfg.maxSize st.temp st.queue
    let url := folderOf cfg ++ "/" ++ nameOf cfg ++ st.fileLast
    let st1 := { st with puts := st.puts ++ [(url, g.body)], queue := g.rest, temp := g.temp }
    match cfg.putStatus st.splitIndex with
    | none =>
      { st1 with status := UStatus.error, errorMessage := some "exception" }
    | some code =>
      if putOk code then
        let st2 := { st1 with
          totalUploaded := st1.totalUploaded + g.uploaded,
          splitFileList := st1.splitFileList ++ [mkEntry (nameOf cfg ++ st.fileLast) g.uploaded],
          splitIndex := st.splitIndex + 1,
          fileLast := ".part" ++ zfill3 (st.splitIndex + 1) }
        if g.temp = none then afterLoop cfg st2
        else workerLoop cfg fuel st2
      else
        afterLoop cfg { st1 with
          errorMessage := some ("上传失败，状态码: " ++ toString code),
          status := UStatus.error }

/-- The proxy state right after `__init__`/`_start_upload`, with `queue` holding
the enqueued items. -/
def initState (queue : List (Option Chunk)) : WState :=
  { queue := queue, temp := none, splitIndex := 0, fileLast := "", totalUploaded := 0,
    splitFileList := [], puts := [], splitinfoPut := none,
    status := UStatus.uploading, errorMessage := none }

/-- `FileObjectUploadProxy.write` (`fileObjectProxy.py:468-479`): raises on a
closed file or when the status is `ERROR`, otherwise enqueues the chunk. -/
def write (closed : Bool) (st : WState) (data : Chunk) : Except String WState :=
  if closed then Except.error "I/O operation on closed file"
  else if st.status = UStatus.error then Except.error "上传错误"
  else Except.ok { st with queue := st.queue ++ [some data] }

/-- `FileObjectUploadProxy.close` (`fileObjectProxy.py:481-495`): only when the
queue is non-empty and the status is not `ERROR` does it push the `None`
sentinel and join the worker.  Joining runs the worker to completion when the
worker is still alive (status `UPLOADING`, parked at `queue.get()`); a worker
that already exited is joined instantly. -/
def close (cfg : WConfig) (fuel : Nat) (st : WState) : WState :=
  if st.queue.length > 0 ∧ st.status ≠ UStatus.error then
    let st1 := { st with queue := st.queue ++ [none] }
    if st.status = UStatus.uploading then workerLoop cfg fuel st1 else st1
  else st

/-- The fields of `get_status` (`fileObjectProxy.py:497-505`) that `end_write`
reads: `uploaded_bytes`, `status`, `error`. -/
def get_status (st : WState) : Nat × UStatus × Option String :=
  (st.totalUploaded, st.status, st.errorMessage)

/-- Expected URL of the physical part with split-index `k`:
part 0 at the original URL, part `k ≥ 1` at `<url>.part<kkk>`. -/
def partSuffix (k : Nat) : String :=
  if k = 0 then "" else ".part" ++ zfill3 k

/-- Expected URL of the part with split-index `k`. -/
def partUrl (cfg : WConfig) (k : Nat) : String :=
  folderOf cfg ++ "/" ++ nameOf cfg ++ partSuffix k

/-- The physical PUTs predicted for bodies `bs` starting at split-index `k`. -/
def putsFrom (cfg : WConfig) : Nat → List (List Chunk) → List (String × List Chunk)
  | _, [] => []
  | k, b :: bs => (partUrl cfg k, b) :: putsFrom cfg (k + 1) bs

/-- The `splitFileList` entries predicted for bodies `bs` starting at
split-index `k`. -/
def entriesFrom (cfg : WConfig) : Nat → List (List Chunk) → List J
  | _, [] => []
  | k, b :: bs =>
    mkEntry (nameOf cfg ++ partSuffix k) b.flatten.length :: entriesFrom cfg (k + 1) bs

/-- `optToList`: the chunk stream represented by an optional holdover chunk. -/
def optToList : Option Chunk → List Chunk
  | none => []
  | some c => [c]

/-- Behaviour of the queue-consuming generator loop on a sentinel-terminated
queue: it yields a part of at most `maxSize` bytes; either it consumed the
sentinel (end of data) or it stashed an overflow chunk, leaving a strictly
shorter sentinel-terminated queue. -/
theorem genLoop_spec (maxSize : Nat) (cs : List Chunk) (up : Nat)
    (hsz : ∀ c ∈ cs, c.length ≤ maxSize) (hup : up ≤ maxSize) :
    (genLoop maxSize (cs.map some ++ [none]) up).uploaded
        = up + (genLoop maxSize (cs.map some ++ [none]) up).body.flatten.length ∧
    (genLoop maxSize (cs.map some ++ [none]) up).uploaded ≤ maxSize ∧
    (((genLoop maxSize (cs.map some ++ [none]) up).temp = none ∧
      (genLoop maxSize (cs.map some ++ [none]) up).rest = [] ∧
      (genLoop maxSize (cs.map some ++ [none]) up).body = cs) ∨
     (∃ c cs', (genLoop maxSize (cs.map some ++ [none]) up).temp = some c ∧
        (genLoop maxSize (cs.map some ++ [none]) up).rest = cs'.map some ++ [none] ∧
        (genLoop maxSize (cs.map some ++ [none]) up).body ++ c :: cs' = cs ∧
        cs'.length < cs.length ∧
        (∀ d ∈ c :: cs', d.length ≤ maxSize))) := by
  induction cs generalizing up with
  | nil =>
    exact ⟨by simp [genLoop], by simpa [genLoop] using hup, Or.inl (by simp [genLoop])⟩
  | cons c cs ih =>
    have hc : c.length ≤ maxSize := hsz c (List.mem_cons_self c cs)
    have hcs : ∀ d ∈ cs, d.length ≤ maxSize := fun d hd => hsz d (List.mem_cons_of_mem c hd)
    rw [List.map_cons, List.cons_append]
    by_cases hover : up + c.length > maxSize
    · have e : genLoop maxSize (some c :: (cs.map some ++ [none])) up
          = ⟨[], up, some c, cs.map some ++ [none]⟩ := by
        simp only [genLoop]; rw [if_pos hover]
      rw [e]
      refine ⟨by simp, hup, Or.inr ⟨c, cs, rfl, rfl, by simp, by simp, ?_⟩⟩
      intro d hd
      rcases List.mem_cons.mp hd with h | h
      · exact h ▸ hc
      · exact hcs d h
    · have e : genLoop maxSize (some c :: (cs.map some ++ [none])) up
          = ⟨c :: (genLoop maxSize (cs.map some ++ [none]) (up + c.length)).body,
             (genLoop maxSize (cs.map some ++ [none]) (up + c.length)).uploaded,
             (genLoop maxSize (cs.map some ++ [none]) (up + c.length)).temp,
             (genLoop maxSize (cs.map some ++ [none]) (up + c.length)).rest⟩ := by
        simp only [genLoop]; rw [if_neg hover]
      rw [e]
      obtain ⟨h1, h2, h3⟩ := ih (up + c.length) hcs (by omega)
      refine ⟨?_, h2, ?_⟩
      · simp only [List.flatten_cons, List.length_append]
        omega
      · rcases h3 with ⟨ht, hr, hb⟩ | ⟨c', cs', ht, hr, hb, hlen, hsz'⟩
        · exact Or.inl ⟨ht, hr, by rw [hb]⟩
        · refine Or.inr ⟨c', cs', ht, hr, ?_, by simpa using Nat.lt_succ_of_lt hlen, hsz'⟩
          simpa using hb

/-- Behaviour of one full `_data_generator` run (holdover chunk included). -/
theorem genRound_spec (maxSize : Nat) (temp : Option Chunk) (cs : List Chunk)
    (hsz : ∀ c ∈ optToList temp ++ cs, c.length ≤ maxSize) :
    (genRound maxSize temp (cs.map some ++ [none])).uploaded
        = (genRound maxSize temp (cs.map some ++ [none])).body.flatten.length ∧
    (genRound maxSize temp (cs.map some ++ [none])).uploaded ≤ maxSize ∧
    (((genRound maxSize temp (cs.map some ++ [none])).temp = none ∧
      (genRound maxSize temp (cs.map some ++ [none])).rest = [] ∧
      (genRound maxSize temp (cs.map some ++ [none])).body = optToList temp ++ cs) ∨
     (∃ c cs', (genRound maxSize temp (cs.map some ++ [none])).temp = some c ∧
        (genRound maxSize temp (cs.map some ++ [none])).rest = cs'.map some ++ [none] ∧
        (genRound maxSize temp (cs.map some ++ [none])).body ++ c :: cs'
            = optToList temp ++ cs ∧
        cs'.length < cs.length ∧
        (∀ d ∈ c :: cs', d.length ≤ maxSize))) := by
  match temp with
  | none =>
    have hcs : ∀ c ∈ cs, c.length ≤ maxSize := by
      intro c hc; exact hsz c (by simpa [optToList] using hc)
    simpa [genRound, optToList] using genLoop_spec maxSize cs 0 hcs (Nat.zero_le _)
  | some c0 =>
    have hc0 : c0.length ≤ maxSize := hsz c0 (by simp [optToList])
    have hcs : ∀ c ∈ cs, c.length ≤ maxSize := by
      intro c hc; exact hsz c (by simp [optToList, hc])
    have hover : ¬ (0 + c0.length > maxSize) := by omega
    have e : genRound maxSize (some c0) (cs.map some ++ [none])
        = ⟨c0 :: (genLoop maxSize (cs.map some ++ [none]) c0.length).body,
           (genLoop maxSize (cs.map some ++ [none]) c0.length).uploaded,
           (genLoop maxSize (cs.map some ++ [none]) c0.length).temp,
           (genLoop maxSize (cs.map some ++ [none]) c0.length).rest⟩ := by
      simp only [genRound]; rw [if_neg hover]
    rw [e]
    obtain ⟨h1, h2, h3⟩ := genLoop_spec maxSize cs c0.length hcs hc0
    refine ⟨?_, h2, ?_⟩
    · simp only [List.flatten_cons, List.length_append]
      omega
    · rcases h3 with ⟨ht, hr, hb⟩ | ⟨c', cs', ht, hr, hb, hlen, hsz'⟩
      · exact Or.inl ⟨ht, hr, by rw [hb]; simp [optToList]⟩
      · refine Or.inr ⟨c', cs', ht, hr, ?_, hlen, hsz'⟩
        simp only [optToList, List.cons_append, List.singleton_append]
        simpa using hb

theorem partSuffix_succ (k : Nat) : partSuffix (k + 1) = ".part" ++ zfill3 (k + 1) := by
  simp [partSuffix]

/-- Behaviour of `_upload_worker` when every backend PUT succeeds: the input
chunk stream is partitioned into part bodies of at most `maxSize` bytes each,
PUT in order to the head URL and the `.partNNN` URLs; the `splitFileList`
entries record each part's name and byte count; the `.splitinfo` manifest is
PUT exactly when more than one part was written; the worker ends `DONE`. -/
theorem workerLoop_spec (cfg : WConfig) (fuel : Nat) (cs : List Chunk)
    (temp : Option Chunk) (k T : Nat) (S : List J) (P : List (String × List Chunk))
    (sp : Option (String × J)) (em : Option String) (stt : UStatus)
    (hput : ∀ i, ∃ c, cfg.putStatus i = some c ∧ putOk c = true)
    (hsplit : ∃ c, cfg.splitinfoStatus = some c ∧ putOk c = true)
    (hsz : ∀ c ∈ optToList temp ++ cs, c.length ≤ cfg.maxSize)
    (hfuel : cs.length < fuel) :
    ∃ bodies : List (List Chunk),
      bodies ≠ [] ∧
      bodies.flatten = optToList temp ++ cs ∧
      (∀ b ∈ bodies, b.flatten.length ≤ cfg.maxSize) ∧
      workerLoop cfg fuel
          { queue := cs.map some ++ [none], temp := temp, splitIndex := k,
            fileLast := partSuffix k, totalUploaded := T, splitFileList := S,
            puts := P, splitinfoPut := sp, status := stt, errorMessage := em }
        = { queue := [], temp := none, splitIndex := k + bodies.length,
            fileLast := ".part" ++ zfill3 (k + bodies.length),
            totalUploaded := T + (optToList temp ++ cs).flatten.length,
            splitFileList := S ++ entriesFrom cfg k bodies,
            puts := P ++ putsFrom cfg k bodies,
            splitinfoPut :=
              if k + bodies.length > 1 then
                some (folderOf cfg ++ "/" ++ nameOf cfg ++ ".splitinfo",
                      mkManifest (S ++ entriesFrom cfg k bodies)
                        (T + (optToList temp ++ cs).flatten.length))
              else sp,
            status := UStatus.done, errorMessage := em } := by
  induction fuel generalizing cs temp k T S P sp em stt with
  | zero => omega
  | succ fuel ih =>
    obtain ⟨code, hcode, hok⟩ := hput k
    obtain ⟨h1, h2, h3⟩ := genRound_spec cfg.maxSize temp cs hsz
    rcases h3 with ⟨ht, hr, hb⟩ | ⟨c, cs', ht, hr, hb, hlen, hsz'⟩
    · -- the generator consumed the sentinel: last round
      refine ⟨[(genRound cfg.maxSize temp (cs.map some ++ [none])).body], by simp, by simp [hb], ?_, ?_⟩
      · intro b hbmem
        rcases List.mem_singleton.mp hbmem with rfl
        omega
      · simp only [workerLoop]
        rw [hcode]
        simp only [hok, if_true, ht, hr]
        by_cases hk : k + 1 > 1
        · obtain ⟨sc, hsc, hsok⟩ := hsplit
          simp only [afterLoop]
          rw [if_pos hk]
          simp only [hsc, hsok, if_true]
          simp only [WState.mk.injEq]
          refine ⟨by trivial, by trivial, by simp, by simp [partSuffix_succ],
            by rw [h1, hb], ?_, ?_, ?_, by trivial, by trivial⟩
          · simp [entriesFrom, h1, hb, partUrl]
          · simp [putsFrom, partUrl]
          · rw [if_pos (by simpa using hk)]
            simp [entriesFrom, h1, hb, mkManifest]
        · simp only [afterLoop]
          rw [if_neg hk]
          simp only [WState.mk.injEq]
          refine ⟨by trivial, by trivial, by simp, by simp [partSuffix_succ],
            by rw [h1, hb], ?_, ?_, ?_, by trivial, by trivial⟩
          · simp [entriesFrom, h1, hb, partUrl]
          · simp [putsFrom, partUrl]
          · rw [if_neg (by simpa using hk)]
    · -- the generator stashed an overflow chunk: more rounds follow
      have hx := ih cs' (some c) (k + 1) (T + (genRound cfg.maxSize temp (cs.map some ++ [none])).uploaded)
        (S ++ [mkEntry (nameOf cfg ++ partSuffix k) (genRound cfg.maxSize temp (cs.map some ++ [none])).uploaded])
        (P ++ [(folderOf cfg ++ "/" ++ nameOf cfg ++ partSuffix k,
                (genRound cfg.maxSize temp (cs.map some ++ [none])).body)])
        sp em stt (by simpa [optToList] using hsz') (by omega)
      obtain ⟨bodies, hne, hflat, hbnd, heq⟩ := hx
      refine ⟨(genRound cfg.maxSize temp (cs.map some ++ [none])).body :: bodies, by simp, ?_, ?_, ?_⟩
      · simp only [List.flatten_cons, hflat]
        simp only [optToList, List.singleton_append] at hb ⊢
        rw [← hb]
      · intro b hbmem
        rcases List.mem_cons.mp hbmem with rfl | h
        · omega
        · exact hbnd b h
      · simp only [workerLoop]
        rw [hcode]
        simp only [hok, if_true, ht, hr]
        rw [partSuffix_succ] at heq
        have hne2 : ¬ (some c = none) := by simp
        simp only [hne2, if_false]
        rw [heq]
        simp only [WState.mk.injEq]
        have hbytes : (genRound cfg.maxSize temp (cs.map some ++ [none])).body.flatten.length
            + (optToList (some c) ++ cs').flatten.length
            = (optToList temp ++ cs).flatten.length := by
          rw [← hb]
          simp [optToList]
        refine ⟨by trivial, by trivial, by simp only [List.length_cons]; omega, ?_, ?_, ?_, ?_, ?_,
          by trivial, by trivial⟩
        · have harg : k + 1 + bodies.length
              = k + ((genRound cfg.maxSize temp (cs.map some ++ [none])).body :: bodies).length := by
            simp only [List.length_cons]
            omega
          rw [harg]
        · omega
        · simp [entriesFrom, h1, partUrl, List.append_assoc]
        · simp [putsFrom, partUrl, List.append_assoc]
        · by_cases hgt : k + (bodies.length + 1) > 1
          · rw [if_pos (by omega), if_pos (by simpa using hgt)]
            simp only [Option.some.injEq, Prod.mk.injEq, mkManifest]
            refine ⟨by trivial, ?_⟩
            simp only [J.obj.injEq, List.cons.injEq, Prod.mk.injEq]
            refine ⟨⟨by trivial, ?_⟩, ?_⟩
            · simp only [J.arr.injEq]
              simp [entriesFrom, h1, partUrl, List.append_assoc]
            · refine ⟨⟨by trivial, ?_⟩, by trivial⟩
              simp only [J.obj.injEq, List.cons.injEq, Prod.mk.injEq, and_true]
              refine ⟨by trivial, ?_⟩
              simp only [J.num.injEq]
              omega
          · rw [if_neg (by omega), if_neg (by simpa using hgt)]

theorem jGetNat_mkEntry_filesize (n : String) (s : Nat) :
    jGetNat (mkEntry n s) "filesize" 0 = s := rfl

theorem jLookup_mkEntry_filesize (n : String) (s : Nat) :
    jLookup (mkEntry n s) "filesize" = some (J.num s) := rfl

theorem jLookup_mkEntry_fileSizeCamel (n : String) (s : Nat) :
    jLookup (mkEntry n s) "fileSize" = none := rfl

theorem entriesFrom_sizes (cfg : WConfig) (k : Nat) (bs : List (List Chunk)) :
    (entriesFrom cfg k bs).map (fun e => jGetNat e "filesize" 0)
      = bs.map (fun b => b.flatten.length) := by
  induction bs generalizing k with
  | nil => rfl
  | cons b bs ih =>
    simp only [entriesFrom, List.map_cons, ih, jGetNat_mkEntry_filesize]

theorem entriesFrom_mem (cfg : WConfig) (k : Nat) (bs : List (List Chunk)) :
    ∀ e ∈ entriesFrom cfg k bs, ∃ n s, e = mkEntry n s := by
  induction bs generalizing k with
  | nil => intro e he; cases he
  | cons b bs ih =>
    intro e he
    rcases List.mem_cons.mp he with rfl | h
    · exact ⟨_, _, rfl⟩
    · exact ih (k + 1) e h

theorem putsFrom_map_snd (cfg : WConfig) (k : Nat) (bs : List (List Chunk)) :
    (putsFrom cfg k bs).map Prod.snd = bs := by
  induction bs generalizing k with
  | nil => rfl
  | cons b bs ih => simp only [putsFrom, List.map_cons, ih]

theorem putsFrom_length (cfg : WConfig) (k : Nat) (bs : List (List Chunk)) :
    (putsFrom cfg k bs).length = bs.length := by
  induction bs generalizing k with
  | nil => rfl
  | cons b bs ih => simp only [putsFrom, List.length_cons, ih]

theorem putsFrom_map_fst (cfg : WConfig) (k : Nat) (bs : List (List Chunk)) :
    (putsFrom cfg k bs).map Prod.fst = (List.range' k bs.length).map (partUrl cfg) := by
  induction bs generalizing k with
  | nil => rfl
  | cons b bs ih => simp only [putsFrom, List.map_cons, ih, List.range', List.length_cons]

theorem sum_map_flatten_length (bs : List (List Chunk)) :
    (bs.map (fun b => b.flatten.length)).sum = bs.flatten.flatten.length := by
  induction bs with
  | nil => rfl
  | cons b bs ih =>
    simp only [List.map_cons, List.sum_cons, List.flatten_cons, List.flatten_append,
      List.length_append, ih]

/-- With the head URL containing a `'/'`, `rsplit`-and-rejoin reproduces it. -/
theorem partUrl_eq (cfg : WConfig) (hurl : folderOf cfg ++ "/" ++ nameOf cfg = cfg.backendUrl)
    (i : Nat) :
    partUrl cfg i = if i = 0 then cfg.backendUrl
                    else cfg.backendUrl ++ ".part" ++ zfill3 i := by
  by_cases h : i = 0
  · subst h
    simp [partUrl, partSuffix, hurl]
  · rw [if_neg h]
    simp only [partUrl, partSuffix, if_neg h]
    rw [← hurl]
    simp [String.append_assoc]

end Upload

/-! ## Concrete upload scenarios

The spec's worked example: `FILE_MAX_SIZE=100`, 250 bytes written in 30-byte
chunks (eight chunks of 30 and one of 10), every backend PUT accepted. -/

/-- The 250 bytes, written in 30-byte chunks. -/
def exChunks : List Upload.Chunk :=
  [List.range' 0 30, List.range' 30 30, List.range' 60 30, List.range' 90 30,
   List.range' 120 30, List.range' 150 30, List.range' 180 30, List.range' 210 30,
   List.range' 240 10]

/-- Upload of `u` with `FILE_MAX_SIZE = 100`; the backend accepts every PUT. -/
def exCfg : Upload.WConfig :=
  { backendUrl := "http://backend/dav/u", maxSize := 100,
    putStatus := fun _ => some 201, splitinfoStatus := some 201 }

/-- A backend whose first part PUT is rejected with status 500. -/
def c5cfg : Upload.WConfig :=
  { backendUrl := "http://backend/dav/u", maxSize := 100,
    putStatus := fun _ => some 500, splitinfoStatus := some 201 }

/-- A backend whose part PUTs raise a transport exception. -/
def c8cfg : Upload.WConfig :=
  { backendUrl := "http://backend/dav/u", maxSize := 100,
    putStatus := fun _ => none, splitinfoStatus := some 201 }

/-- Four 60-byte writes. -/
def chunks8 : List Upload.Chunk :=
  [List.range' 0 60, List.range' 60 60, List.range' 120 60, List.range' 180 60]

/-- The proxy state when `close` is called in the C8 scenario: the worker
already consumed the first two writes, hit the transport exception on the
first PUT, and died with `STATUS_ERROR`; two writes are still queued. -/
def preClose8 : Upload.WState :=
  Upload.workerLoop c8cfg 5 (Upload.initState (chunks8.map some))

/-- Small helper: flattening the per-body byte lists equals flattening twice. -/
theorem flatten_map_flatten (bs : List (List Upload.Chunk)) :
    (bs.map List.flatten).flatten = bs.flatten.flatten := by
  induction bs with
  | nil => rfl
  | cons b bs ih => simp [ih]

/-- C1, the claim as stated is false: with `FILE_MAX_SIZE=100` and 250 bytes
written in 30-byte chunks, the produced parts are NOT
`[{u,100},{u.part001,100},{u.part002,50}]` and the `splitFileList` entries do
not carry the key `fileSize` (the generator never splits a chunk, so the parts
are 90, 90 and 70 bytes, and the key written by the worker is `filesize`). -/
theorem C1_counterexample :
    ¬ (((Upload.workerLoop exCfg 10 (Upload.initState (exChunks.map some ++ [none]))).puts.map
          (fun p => p.2.flatten.length) = [100, 100, 50]) ∧
       ((Upload.workerLoop exCfg 10 (Upload.initState (exChunks.map some ++ [none]))).splitFileList.map
          (fun e => (jGetStr e "fileName" "", jGetNat e "fileSize" 0))
        = [("u", 100), ("u.part001", 100), ("u.part002", 50)])) := by
  decide

/-- C1 (amended): writing `B` bytes in any chunk pattern (each chunk at most
`FILE_MAX_SIZE`) and closing makes the worker PUT physical parts whose bodies
concatenate byte-for-byte to the input, each bounded by `FILE_MAX_SIZE`,
part 0 at the original URL and part `i ≥ 1` at `<url>.partNNN`; the
`splitFileList` entries declare each part's size under the key `filesize`
(not `fileSize`), summing to `B`; a `.splitinfo` manifest with
`meta.content_length = B` is PUT if and only if more than one part was
written.  In particular with `FILE_MAX_SIZE=100` and 250 bytes in 30-byte
chunks the parts are `u`:90, `u.part001`:90, `u.part002`:70 bytes. -/
theorem C1_upload_partition (cfg : Upload.WConfig) (chunks : List Upload.Chunk) (fuel : Nat)
    (r : Upload.WState)
    (hput : ∀ i, ∃ c, cfg.putStatus i = some c ∧ Upload.putOk c = true)
    (hsplit : ∃ c, cfg.splitinfoStatus = some c ∧ Upload.putOk c = true)
    (hsz : ∀ c ∈ chunks, c.length ≤ cfg.maxSize)
    (hfuel : chunks.length < fuel)
    (hurl : Upload.folderOf cfg ++ "/" ++ Upload.nameOf cfg = cfg.backendUrl)
    (hr : r = Upload.workerLoop cfg fuel (Upload.initState (chunks.map some ++ [none]))) :
    ((r.puts.map (fun p => p.2.flatten)).flatten = chunks.flatten) ∧
    (∀ p ∈ r.puts, p.2.flatten.length ≤ cfg.maxSize) ∧
    (r.splitFileList.map (fun e => jGetNat e "filesize" 0)
        = r.puts.map (fun p => p.2.flatten.length)) ∧
    ((r.splitFileList.map (fun e => jGetNat e "filesize" 0)).sum = chunks.flatten.length) ∧
    (r.puts.map Prod.fst
        = (List.range r.puts.length).map
            (fun i => if i = 0 then cfg.backendUrl else cfg.backendUrl ++ ".part" ++ zfill3 i)) ∧
    (r.splitinfoPut.isSome ↔ r.puts.length > 1) ∧
    (∀ u m, r.splitinfoPut = some (u, m) →
        u = cfg.backendUrl ++ ".splitinfo" ∧
        jLookup m "meta" = some (J.obj [("content_length", J.num chunks.flatten.length)]) ∧
        jGetArr m "splitFileList" = some r.splitFileList) ∧
    (∀ e ∈ r.splitFileList, (jLookup e "filesize").isSome ∧ jLookup e "fileSize" = none) ∧
    (r.status = Upload.UStatus.done) ∧
    ((Upload.workerLoop exCfg 10 (Upload.initState (exChunks.map some ++ [none]))).splitFileList.map
        (fun e => (jGetStr e "fileName" "", jGetNat e "filesize" 0))
      = [("u", 90), ("u.part001", 90), ("u.part002", 70)]) := by
  obtain ⟨bodies, hne, hflat, hbnd, heq⟩ :=
    Upload.workerLoop_spec cfg fuel chunks none 0 0 [] [] none none Upload.UStatus.uploading
      hput hsplit (by simpa [Upload.optToList] using hsz) hfuel
  have hinit : Upload.initState (chunks.map some ++ [none])
      = { queue := chunks.map some ++ [none], temp := none, splitIndex := 0,
          fileLast := Upload.partSuffix 0, totalUploaded := 0, splitFileList := [],
          puts := [], splitinfoPut := none, status := Upload.UStatus.uploading,
          errorMessage := none } := by
    simp [Upload.initState, Upload.partSuffix]
  simp only [Upload.optToList, List.nil_append, Nat.zero_add] at heq hflat
  rw [hinit, heq] at hr
  subst hr
  refine ⟨?_, ?_, ?_, ?_, ?_, ?_, ?_, ?_, by trivial, by decide⟩
  · simp only [List.nil_append]
    have : (Upload.putsFrom cfg 0 bodies).map (fun p => p.2.flatten)
        = ((Upload.putsFrom cfg 0 bodies).map Prod.snd).map List.flatten := by
      simp [List.map_map]
    rw [this, Upload.putsFrom_map_snd, flatten_map_flatten, hflat]
  · intro p hp
    have : p.2 ∈ (Upload.putsFrom cfg 0 bodies).map Prod.snd := List.mem_map_of_mem Prod.snd hp
    rw [Upload.putsFrom_map_snd] at this
    simpa using hbnd p.2 (by simpa using this)
  · simp only [List.nil_append]
    rw [Upload.entriesFrom_sizes]
    have : (Upload.putsFrom cfg 0 bodies).map (fun p => p.2.flatten.length)
        = ((Upload.putsFrom cfg 0 bodies).map Prod.snd).map (fun b => b.flatten.length) := by
      simp [List.map_map]
    rw [this, Upload.putsFrom_map_snd]
  · simp only [List.nil_append]
    rw [Upload.entriesFrom_sizes, Upload.sum_map_flatten_length, hflat]
  · simp only [List.nil_append]
    rw [Upload.putsFrom_map_fst, Upload.putsFrom_length, ← List.range_eq_range']
    exact List.map_congr_left (fun i _ => Upload.partUrl_eq cfg hurl i)
  · simp only [List.nil_append, Upload.putsFrom_length]
    by_cases h : bodies.length > 1
    · rw [if_pos (by simpa using h)]
      simpa using h
    · rw [if_neg (by simpa using h)]
      simpa using h
  · intro u m hum
    simp only [List.nil_append] at hum ⊢
    by_cases h : bodies.length > 1
    · rw [if_pos (by simpa using h)] at hum
      obtain ⟨hu, hm⟩ := Prod.mk.inj (Option.some_inj.mp hum)
      refine ⟨?_, ?_, ?_⟩
      · rw [← hu, ← hurl]
      · rw [← hm]
        rfl
      · rw [← hm]
        rfl
    · rw [if_neg (by simpa using h)] at hum
      cases hum
  · intro e he
    simp only [List.nil_append] at he
    obtain ⟨n, s, rfl⟩ := Upload.entriesFrom_mem cfg 0 bodies e he
    exact ⟨by rw [Upload.jLookup_mkEntry_filesize]; rfl,
           Upload.jLookup_mkEntry_fileSizeCamel n s⟩

/-- C1 witness: the amended partition statement holds at the spec's worked
example (250 bytes in 30-byte chunks, `FILE_MAX_SIZE=100`). -/
theorem C1_witness :
    (∀ c ∈ exChunks, c.length ≤ exCfg.maxSize) ∧
    exChunks.length < 10 ∧
    (((Upload.workerLoop exCfg 10 (Upload.initState (exChunks.map some ++ [none]))).puts.map
        (fun p => p.2.flatten)).flatten = exChunks.flatten) :=
  ⟨by decide, by decide,
   (C1_upload_partition exCfg exChunks 10 _ (fun _ => ⟨201, rfl, by decide⟩)
      ⟨201, rfl, by decide⟩ (by decide) (by decide) (by decide) rfl).1⟩

/-- C5: the upload worker's ERROR state is NOT terminal.  When the backend
rejects the first part PUT with 500, the worker records the error message and
sets `STATUS_ERROR`, but the unconditional `STATUS_DONE` assignment after the
loop (`fileObjectProxy.py:454`) overwrites it, so the proxy finishes `DONE`
and a subsequent `write` enqueues instead of raising. -/
theorem C5_error_overwritten_by_done :
    (Upload.workerLoop c5cfg 3 (Upload.initState [some [1, 2, 3], none])).errorMessage
        = some "上传失败，状态码: 500" ∧
    (Upload.workerLoop c5cfg 3 (Upload.initState [some [1, 2, 3], none])).status
        = Upload.UStatus.done ∧
    (Upload.workerLoop c5cfg 3 (Upload.initState [some [1, 2, 3], none])).status
        ≠ Upload.UStatus.error ∧
    ∃ st', Upload.write false (Upload.workerLoop c5cfg 3 (Upload.initState [some [1, 2, 3], none])) [7]
        = Except.ok st' :=
  ⟨by decide, by decide, by decide, ⟨_, rfl⟩⟩

/-- C8, the claim as stated is false: with two writes still unconsumed but the
worker already dead in `STATUS_ERROR` (transport exception on the first PUT),
`close` pushes no sentinel and flushes nothing — the queued bytes never reach
the backend. -/
theorem C8_counterexample :
    preClose8.queue.length > 0 ∧
    (Upload.close c8cfg 5 preClose8).queue = (chunks8.drop 2).map some ∧
    ¬ (((Upload.close c8cfg 5 preClose8).puts.map (fun p => p.2.flatten)).flatten
        = chunks8.flatten) := by
  decide

/-- C8 (amended): when writes are still unconsumed AND the status is not
ERROR, `close` pushes the end-of-stream sentinel and joins the worker; with
the backend accepting every PUT all queued bytes are flushed, and after close
the status is terminal (`DONE`) with the byte count and error message
observable through `get_status`.  When the status is already ERROR, `close`
skips the sentinel and the join, leaving the state unchanged (terminal
ERROR). -/
theorem C8_close_joins_worker :
    (∀ (cfg : Upload.WConfig) (chunks : List Upload.Chunk) (fuel : Nat),
      chunks ≠ [] →
      (∀ i, ∃ c, cfg.putStatus i = some c ∧ Upload.putOk c = true) →
      (∃ c, cfg.splitinfoStatus = some c ∧ Upload.putOk c = true) →
      (∀ c ∈ chunks, c.length ≤ cfg.maxSize) →
      chunks.length < fuel →
      ((Upload.close cfg fuel (Upload.initState (chunks.map some))).status
          = Upload.UStatus.done ∧
       ((Upload.close cfg fuel (Upload.initState (chunks.map some))).puts.map
          (fun p => p.2.flatten)).flatten = chunks.flatten ∧
       (Upload.close cfg fuel (Upload.initState (chunks.map some))).queue = [] ∧
       Upload.get_status (Upload.close cfg fuel (Upload.initState (chunks.map some)))
          = (chunks.flatten.length, Upload.UStatus.done, none))) ∧
    (∀ (cfg : Upload.WConfig) (fuel : Nat) (st : Upload.WState),
      st.status = Upload.UStatus.error → Upload.close cfg fuel st = st) := by
  constructor
  · intro cfg chunks fuel hne hput hsplit hsz hfuel
    have hq : 0 < (chunks.map some).length := by
      simpa using List.length_pos.mpr hne
    have hclose : Upload.close cfg fuel (Upload.initState (chunks.map some))
        = Upload.workerLoop cfg fuel (Upload.initState (chunks.map some ++ [none])) := by
      simp [Upload.close, Upload.initState, List.length_pos.mpr hne]
    rw [hclose]
    obtain ⟨bodies, hbne, hflat, hbnd, heq⟩ :=
      Upload.workerLoop_spec cfg fuel chunks none 0 0 [] [] none none Upload.UStatus.uploading
        hput hsplit (by simpa [Upload.optToList] using hsz) hfuel
    have hinit : Upload.initState (chunks.map some ++ [none])
        = { queue := chunks.map some ++ [none], temp := none, splitIndex := 0,
            fileLast := Upload.partSuffix 0, totalUploaded := 0, splitFileList := [],
            puts := [], splitinfoPut := none, status := Upload.UStatus.uploading,
            errorMessage := none } := by
      simp [Upload.initState, Upload.partSuffix]
    simp only [Upload.optToList, List.nil_append, Nat.zero_add] at heq hflat
    rw [hinit, heq]
    refine ⟨rfl, ?_, rfl, rfl⟩
    simp only [List.nil_append]
    have h2 : (Upload.putsFrom cfg 0 bodies).map (fun p => p.2.flatten)
        = ((Upload.putsFrom cfg 0 bodies).map Prod.snd).map List.flatten := by
      simp [List.map_map]
    rw [h2, Upload.putsFrom_map_snd, flatten_map_flatten, hflat]
  · intro cfg fuel st h
    simp [Upload.close, h]

/-- C8 witness: the amended close statement at a concrete two-write upload. -/
theorem C8_witness :
    (([[1], [2]] : List Upload.Chunk) ≠ []) ∧
    (Upload.close exCfg 3 (Upload.initState (([[1], [2]] : List Upload.Chunk).map some))).status
        = Upload.UStatus.done :=
  ⟨by decide,
   (C8_close_joins_worker.1 exCfg [[1], [2]] 3 (by decide) (fun _ => ⟨201, rfl, by decide⟩)
      ⟨201, rfl, by decide⟩ (by decide) (by decide)).1⟩

/-! ## The streaming download proxy (`FileObjectDownloadProxy`)

Split-file branch.  The backend is an oracle `chunks i off`: the chunk
sequence streamed for a GET of part `i` opened with `Range: bytes=off-`
(`iter_content`).  `read(-1)` (read to end) is not modelled; the claims only
quantify over `n ≥ 0`. -/

namespace Download

/-- One entry of `self._parts` (`fileObjectProxy.py:49-54`): declared size and
cumulative offsets (`end` is a Lean keyword, called `stop` here). -/
structure PartRec where
  size : Nat
  start : Nat
  stop : Nat
deriving DecidableEq

/-- The `_parts` list built in `__init__` (`fileObjectProxy.py:44-55`) from the
declared part sizes, with `current_start` accumulating. -/
def mkParts : Nat → List Nat → List PartRec
  | _, [] => []
  | start, sz :: rest => ⟨sz, start, start + sz⟩ :: mkParts (start + sz) rest

/-- The declared sizes `int(part.get('fileSize', 0))` of a manifest's
`splitFileList` (`fileObjectProxy.py:45-48`). -/
def sizesFromSplitList (entries : List J) : List Nat :=
  entries.map (fun e => jGetNat e "fileSize" 0)

/-- Static download data: `self._parts`, `self.content_length`, and the
backend streaming oracle. -/
structure DConfig where
  parts : List PartRec
  contentLength : Nat
  chunks : Nat → Nat → List (List Nat)

/-- Mutable state: `self.position`, `self._buffer`,
`self._current_part_index` (`-1` when no part is open) and the remaining
chunks of the open part stream (`self._current_part_stream`). -/
structure DState where
  position : Nat
  buffer : List Nat
  partIdx : Int
  stream : Option (List (List Nat))

/-- The scan inside `_locate_current_part` (`fileObjectProxy.py:104-108`):
first part with `start <= position < end`, yielding the enumerate index and
the intra-part offset. -/
def locateLoop : List PartRec → Nat → Option (Nat × Nat)
  | [], _ => none
  | p :: ps, pos =>
    if p.start ≤ pos ∧ pos < p.stop then some (0, pos - p.start)
    else (locateLoop ps pos).map (fun r => (r.1 + 1, r.2))

/-- `_locate_current_part` (`fileObjectProxy.py:95-112`): position past the end
selects the last part at its end offset (`self._parts[-1]`; the modelled runs
always have a non-empty part list); otherwise the covering part; otherwise
the default `(0, 0)`. -/
def locatePart (cfg : DConfig) (pos : Nat) : Int × Nat :=
  if pos ≥ cfg.contentLength then
    ((cfg.parts.length : Int) - 1, (cfg.parts.getLastD ⟨0, 0, 0⟩).size)
  else
    match locateLoop cfg.parts pos with
    | some (i, off) => ((i : Int), off)
    | none => (0, 0)

/-- `_open_current_part` (`fileObjectProxy.py:114-143`): an out-of-range index
returns without touching the stream; otherwise the part stream opens at the
intra-part offset. -/
def openPart (cfg : DConfig) (idx : Int) (off : Nat)
    (stream : Option (List (List Nat))) : Option (List (List Nat)) :=
  if idx < 0 ∨ idx ≥ (cfg.parts.length : Int) then stream
  else some (cfg.chunks idx.toNat off)

/-- `_ensure_stream`, split branch (`fileObjectProxy.py:66-70`). -/
def ensureStream (cfg : DConfig) (st : DState) : DState :=
  if st.partIdx < 0 ∨ st.stream = none then
    { st with partIdx := (locatePart cfg st.position).1,
              stream := openPart cfg (locatePart cfg st.position).1
                          (locatePart cfg st.position).2 st.stream }
  else st

/-- Chunk count of an optional stream (termination measure only). -/
def streamLen : Option (List (List Nat)) → Nat
  | none => 0
  | some s => s.length

/-- The `while remaining > 0` loop of the split-file `read`
(`fileObjectProxy.py:182-212`): drain `self._buffer` first, then pull chunks
from the open part stream, spilling chunk overflow back into the buffer; on
`StopIteration` switch to the next part (`_switch_to_next_part`,
`fileObjectProxy.py:145-158`) or stop. -/
def readLoop (cfg : DConfig) (remaining : Nat) (buf : List Nat) (idx : Int)
    (stream : Option (List (List Nat))) (pos : Nat) : List Nat × DState :=
  if remaining = 0 then ([], ⟨pos, buf, idx, stream⟩)
  else
    let t := min remaining buf.length
    let d0 := buf.take t
    let buf1 := buf.drop t
    let rem1 := remaining - t
    let pos1 := pos + t
    if rem1 = 0 then (d0, ⟨pos1, buf1, idx, stream⟩)
    else
      match stream with
      | some (c :: cs) =>
        if c.length > rem1 then
          (d0 ++ c.take rem1, ⟨pos1 + rem1, c.drop rem1, idx, some cs⟩)
        else
          (d0 ++ c ++ (readLoop cfg (rem1 - c.length) buf1 idx (some cs) (pos1 + c.length)).1,
           (readLoop cfg (rem1 - c.length) buf1 idx (some cs) (pos1 + c.length)).2)
      | some [] =>
        if idx < 0 ∨ idx ≥ (cfg.parts.length : Int) - 1 then
          (d0, ⟨pos1, buf1, idx, some []⟩)
        else
          (d0 ++ (readLoop cfg rem1 buf1 (idx + 1) (some (cfg.chunks (idx + 1).toNat 0)) pos1).1,
           (readLoop cfg rem1 buf1 (idx + 1) (some (cfg.chunks (idx + 1).toNat 0)) pos1).2)
      | none => (d0, ⟨pos1, buf1, idx, none⟩)
termination_by (((cfg.parts.length : Int) - idx).toNat, streamLen stream)
decreasing_by
  · apply Prod.Lex.right
    simp [streamLen]
  · apply Prod.Lex.left
    rename_i hcond _
    push_neg at hcond
    omega

/-- The split-file branch of `read` (`fileObjectProxy.py:174-215`): `size = 0`
returns immediately; otherwise `_ensure_stream` then the loop. -/
def read (cfg : DConfig) (st : DState) (size : Nat) : List Nat × DState :=
  if size = 0 then ([], st)
  else
    readLoop cfg size (ensureStream cfg st).buffer (ensureStream cfg st).partIdx
      (ensureStream cfg st).stream (ensureStream cfg st).position

/-- `seek` (`fileObjectProxy.py:262-301`), split branch: compute the target
from `whence` (0 = SET, 1 = CUR, 2 = END), clamp into `[0, content_length]`,
and when the position changes clear the buffer and tear down the part
stream (`_current_part_index = -1`). -/
def seek (cfg : DConfig) (st : DState) (offset : Int) (whence : Nat) : DState :=
  let newPos : Int :=
    if whence = 0 then offset
    else if whence = 1 then (st.position : Int) + offset
    else (cfg.contentLength : Int) + offset
  let clamped : Nat := (max 0 (min newPos (cfg.contentLength : Int))).toNat
  if clamped ≠ st.position then
    { position := clamped, buffer := [], partIdx := -1, stream := none }
  else st

/-- Consistency of a `DConfig` with the actual per-part contents `pcs`:
the part records come from the actual sizes, `content_length` is the total,
and the backend streams exactly the suffix of each part from the requested
offset. -/
def Valid (cfg : DConfig) (pcs : List (List Nat)) : Prop :=
  cfg.parts = mkParts 0 (pcs.map List.length) ∧
  cfg.contentLength = pcs.flatten.length ∧
  ∀ i off, i < pcs.length → (cfg.chunks i off).flatten = (pcs.getD i []).drop off

/-- Invariant of reachable proxy states: the position is in range and either
no stream is open (fresh proxy, or just after a position-changing seek) with
an empty buffer, or a part stream is open and the buffer, the remaining
chunks and the remaining parts together hold exactly the content suffix at
`position`. -/
def StateOK (_cfg : DConfig) (pcs : List (List Nat)) (st : DState) : Prop :=
  st.position ≤ pcs.flatten.length ∧
  ((st.partIdx = -1 ∧ st.stream = none ∧ st.buffer = []) ∨
   (∃ (i : Nat) (rest : List (List Nat)), st.partIdx = (i : Int) ∧ i < pcs.length ∧ st.stream = some rest ∧
      st.buffer ++ rest.flatten ++ ((pcs.drop (i + 1)).flatten)
        = pcs.flatten.drop st.position))

end Download

namespace Download

theorem drop_append_ge {α : Type} (l m : List α) (n : Nat) (h : l.length ≤ n) :
    (l ++ m).drop n = m.drop (n - l.length) := by
  induction l generalizing n with
  | nil => simp
  | cons a l ih =>
    match n, h with
    | n + 1, h => simpa using ih n (by simpa using h)

theorem drop_getD_cons {α : Type} [Inhabited α] (l : List α) (n : Nat) (h : n < l.length) :
    l.drop n = l.getD n default :: l.drop (n + 1) := by
  rw [List.drop_eq_getElem_cons h]
  simp [List.getD, List.getElem?_eq_getElem h]

theorem mkParts_length (base : Nat) (sizes : List Nat) :
    (mkParts base sizes).length = sizes.length := by
  induction sizes generalizing base with
  | nil => rfl
  | cons s rest ih => simp [mkParts, ih]

/-- The scan of `_locate_current_part` on a consistent part table: for a
position strictly inside the content it finds the covering part; the suffix of
that part from the intra-part offset followed by the remaining parts is the
content suffix at the position. -/
theorem locateLoop_spec (pcs : List (List Nat)) (base pos : Nat)
    (h1 : base ≤ pos) (h2 : pos < base + pcs.flatten.length) :
    ∃ i off, locateLoop (mkParts base (pcs.map List.length)) pos = some (i, off) ∧
      i < pcs.length ∧
      off = pos - base - (pcs.take i).flatten.length ∧
      off < (pcs.getD i []).length ∧
      (pcs.getD i []).drop off ++ (pcs.drop (i + 1)).flatten
        = pcs.flatten.drop (pos - base) := by
  induction pcs generalizing base with
  | nil => simp at h2; omega
  | cons p ps ih =>
    by_cases hin : pos < base + p.length
    · refine ⟨0, pos - base, ?_, by simp, by simp, by simpa using by omega, ?_⟩
      · simp only [List.map_cons, mkParts, locateLoop]
        rw [if_pos ⟨h1, hin⟩]
      · simp only [List.getD, List.drop_one, List.flatten_cons, List.drop_succ_cons,
          List.getElem?_cons_zero, Option.getD_some, List.drop_zero]
        rw [List.drop_append_of_le_length (by omega)]
        simp [List.getD]
    · have hbase' : base + p.length ≤ pos := by omega
      have h2' : pos < (base + p.length) + ps.flatten.length := by
        simp only [List.flatten_cons, List.length_append] at h2
        omega
      obtain ⟨i, off, hfind, hilt, hoff, hofflt, hsuf⟩ := ih (base + p.length) hbase' h2'
      refine ⟨i + 1, off, ?_, by simpa using hilt, ?_, by simpa using hofflt, ?_⟩
      · simp only [List.map_cons, mkParts, locateLoop]
        rw [if_neg (by omega), hfind]
        rfl
      · simp only [List.take_succ_cons, List.flatten_cons, List.length_append]
        omega
      · simp only [List.getD_cons_succ, List.drop_succ_cons, List.flatten_cons]
        rw [hsuf, drop_append_ge p _ _ (by omega)]
        congr 1
        omega

/-- The size recorded for the last part equals the last declared size. -/
theorem mkParts_getLastD_size (base : Nat) (sizes : List Nat) :
    ((mkParts base sizes).getLastD ⟨0, 0, 0⟩).size = sizes.getLastD 0 := by
  induction sizes generalizing base with
  | nil => rfl
  | cons s rest ih =>
    cases rest with
    | nil => rfl
    | cons s2 r2 =>
      simpa [mkParts] using ih (base + s)

theorem getLastD_map_length (pcs : List (List Nat)) :
    (pcs.map List.length).getLastD 0 = (pcs.getLastD []).length := by
  induction pcs with
  | nil => rfl
  | cons p ps ih =>
    cases ps with
    | nil => rfl
    | cons q qs => simpa using ih

theorem getD_last (l : List (List Nat)) (h : l ≠ []) :
    l.getD (l.length - 1) [] = l.getLastD [] := by
  induction l with
  | nil => exact absurd rfl h
  | cons p ps ih =>
    cases ps with
    | nil => rfl
    | cons q qs =>
      have h2 : (p :: q :: qs).length - 1 = (q :: qs).length - 1 + 1 := by
        simp
      rw [h2, List.getD_cons_succ]
      simpa using ih (by simp)

/-- `_locate_current_part` on a consistent configuration: the selected part
stream suffix plus the remaining parts is the content suffix at `pos`, and
the index is in range. -/
theorem locatePart_spec (cfg : DConfig) (pcs : List (List Nat)) (pos : Nat)
    (hv : Valid cfg pcs) (hne : pcs ≠ []) (hpos : pos ≤ pcs.flatten.length) :
    ∃ (i : Nat) (off : Nat), locatePart cfg pos = ((i : Int), off) ∧
      i < pcs.length ∧
      (pcs.getD i []).drop off ++ (pcs.drop (i + 1)).flatten = pcs.flatten.drop pos := by
  obtain ⟨hparts, hlen, hchunks⟩ := hv
  by_cases hend : pos ≥ cfg.contentLength
  · -- position at (or past) the end: last part at its end offset
    have hpcs : pcs.length ≠ 0 := fun h => hne (List.length_eq_zero.mp h)
    refine ⟨pcs.length - 1, (pcs.getLastD []).length, ?_, by omega, ?_⟩
    · simp only [locatePart, if_pos hend, hparts, mkParts_length, List.length_map,
        Prod.mk.injEq]
      refine ⟨by omega, ?_⟩
      rw [mkParts_getLastD_size, getLastD_map_length]
    · have hposL : pos = pcs.flatten.length := by omega
      have hd1 : (pcs.getLastD []).drop (pcs.getLastD []).length = [] :=
        List.drop_of_length_le (le_refl _)
      have hd2 : pcs.drop (pcs.length - 1 + 1) = ([] : List (List Nat)) :=
        List.drop_of_length_le (by omega)
      have hd3 : pcs.flatten.drop pos = [] := List.drop_of_length_le (by omega)
      rw [getD_last pcs hne, hd1, hd2, hd3]
      rfl
  · have hlt : pos < pcs.flatten.length := by omega
    obtain ⟨i, off, hfind, hilt, _, _, hsuf⟩ :=
      locateLoop_spec pcs 0 pos (Nat.zero_le pos) (by omega)
    refine ⟨i, off, ?_, hilt, by simpa using hsuf⟩
    simp only [locatePart, if_neg hend, hparts, hfind]

end Download

namespace Download

theorem drop_add {α : Type} (l : List α) (n m : Nat) :
    l.drop (n + m) = (l.drop n).drop m := by
  rw [List.drop_drop]

theorem readLoop_spec (cfg : DConfig) (pcs : List (List Nat)) (hv : Valid cfg pcs) :
    ∀ (d i : Nat), pcs.length - i = d → i < pcs.length →
    ∀ (rest : List (List Nat)) (remaining : Nat) (buf : List Nat) (pos : Nat),
      pos ≤ pcs.flatten.length →
      buf ++ rest.flatten ++ (pcs.drop (i + 1)).flatten = pcs.flatten.drop pos →
      (readLoop cfg remaining buf (i : Int) (some rest) pos).1
          = (pcs.flatten.drop pos).take remaining ∧
      (readLoop cfg remaining buf (i : Int) (some rest) pos).2.position
          = pos + ((pcs.flatten.drop pos).take remaining).length ∧
      StateOK cfg pcs (readLoop cfg remaining buf (i : Int) (some rest) pos).2 := by
  have hlenparts : cfg.parts.length = pcs.length := by
    rw [hv.1, mkParts_length, List.length_map]
  intro d
  induction d using Nat.strong_induction_on with
  | _ d ihd =>
  intro i hd hi rest
  induction rest with
  | nil =>
    intro remaining buf pos hpos hinv
    have hinv' : buf ++ (pcs.drop (i + 1)).flatten = pcs.flatten.drop pos := by
      simpa using hinv
    have hS : (pcs.flatten.drop pos).length = pcs.flatten.length - pos :=
      List.length_drop pos pcs.flatten
    have hSsum : buf.length + (pcs.drop (i + 1)).flatten.length
        = pcs.flatten.length - pos := by
      have := congrArg List.length hinv'
      simpa using this
    rw [readLoop]
    dsimp only
    by_cases h0 : remaining = 0
    · rw [if_pos h0]
      subst h0
      refine ⟨by simp, by simp, hpos, Or.inr ⟨i, [], rfl, hi, rfl, by simpa using hinv'⟩⟩
    · rw [if_neg h0]
      by_cases h1 : remaining - min remaining buf.length = 0
      · rw [if_pos h1]
        have ht : min remaining buf.length = remaining := by omega
        refine ⟨?_, ?_, ?_, Or.inr ⟨i, [], rfl, hi, rfl, ?_⟩⟩
        · rw [ht, ← hinv', List.take_append_of_le_length (by omega)]
        · rw [ht]
          simp only [List.length_take]
          omega
        · simp only [List.length_take]
          omega
        · rw [ht]
          simp only [List.flatten_nil, List.append_nil]
          rw [drop_add pcs.flatten pos remaining, ← hinv',
            List.drop_append_of_le_length (by omega)]
      · rw [if_neg h1]
        have ht : min remaining buf.length = buf.length := by omega
        by_cases hsw : i ≥ pcs.length - 1
        · have hc : ((i : Int) < 0 ∨ (i : Int) ≥ (cfg.parts.length : Int) - 1) := by
            right
            rw [hlenparts]
            omega
          rw [if_pos hc]
          have hieq : i = pcs.length - 1 := by omega
          have hafter : pcs.drop (i + 1) = [] := List.drop_of_length_le (by omega)
          rw [hafter] at hinv'
          simp only [List.flatten_nil, List.append_nil] at hinv'
          refine ⟨?_, ?_, ?_, Or.inr ⟨i, [], rfl, hi, rfl, ?_⟩⟩
          · rw [ht, List.take_length, ← hinv', List.take_of_length_le (by omega)]
          · rw [ht, ← hinv']
            simp only [List.length_take]
            omega
          · simp only [List.length_take]
            omega
          · rw [ht, hafter]
            simp only [List.flatten_nil, List.append_nil, List.drop_length]
            rw [drop_add pcs.flatten pos buf.length, ← hinv',
              List.drop_of_length_le (le_refl _)]
        · have hc : ¬ ((i : Int) < 0 ∨ (i : Int) ≥ (cfg.parts.length : Int) - 1) := by
            rw [hlenparts]
            push_neg
            constructor
            · omega
            · omega
          rw [if_neg hc]
          have hcast : (i : Int) + 1 = ((i + 1 : Nat) : Int) := by push_cast; ring
          have htn : ((i : Int) + 1).toNat = i + 1 := by omega
          rw [htn, hcast]
          have hnew : (cfg.chunks (i + 1) 0).flatten = pcs.getD (i + 1) [] := by
            rw [hv.2.2 (i + 1) 0 (by omega)]
            simp
          have hdropstep : (pcs.drop (i + 1)).flatten
              = pcs.getD (i + 1) [] ++ (pcs.drop (i + 2)).flatten := by
            rw [drop_getD_cons pcs (i + 1) (by omega)]
            simp only [List.flatten_cons]
            rfl
          have hSdrop : pcs.flatten.drop (pos + buf.length)
              = (pcs.drop (i + 1)).flatten := by
            rw [← List.drop_drop, ← hinv', List.drop_left]
          have hrec := ihd (pcs.length - (i + 1)) (by omega) (i + 1) rfl (by omega)
            (cfg.chunks (i + 1) 0) (remaining - buf.length) [] (pos + buf.length)
            (by omega)
            (by rw [List.nil_append, hnew, hSdrop, hdropstep])
          obtain ⟨ha, hb, hc2⟩ := hrec
          have hieq2 : ((i + 1 : Nat) : Int) = (i : Int) + 1 := by push_cast; ring
          rw [ht]
          refine ⟨?_, ?_, ?_⟩
          · rw [List.take_length, List.drop_length, ha, hSdrop]
            have h3 : (pcs.drop (i + 1)).flatten = (pcs.flatten.drop pos).drop buf.length := by
              rw [← hinv', List.drop_left]
            have h4 : buf = (pcs.flatten.drop pos).take buf.length := by
              rw [← hinv', List.take_left]
            have htake : (pcs.flatten.drop pos).take remaining
                = (pcs.flatten.drop pos).take (buf.length + (remaining - buf.length)) := by
              congr 1
              omega
            rw [htake, List.take_add, h3, ← h4]
          · rw [List.drop_length, hb, hSdrop]
            have h2 := congrArg List.length hSdrop
            simp only [List.length_drop] at h2
            simp only [List.length_take, List.length_drop]
            omega
          · rw [List.drop_length]
            exact hc2
  | cons c cs ihr =>
    intro remaining buf pos hpos hinv
    have hinv' : buf ++ (c ++ (cs.flatten ++ (pcs.drop (i + 1)).flatten))
        = pcs.flatten.drop pos := by
      simpa [List.append_assoc] using hinv
    have hS : (pcs.flatten.drop pos).length = pcs.flatten.length - pos :=
      List.length_drop pos pcs.flatten
    have hSsum : buf.length + (c.length + (cs.flatten.length + (pcs.drop (i + 1)).flatten.length))
        = pcs.flatten.length - pos := by
      have := congrArg List.length hinv'
      simpa using this
    rw [readLoop]
    dsimp only
    by_cases h0 : remaining = 0
    · rw [if_pos h0]
      subst h0
      refine ⟨by simp, by simp, hpos,
        Or.inr ⟨i, c :: cs, rfl, hi, rfl, by simpa [List.append_assoc] using hinv'⟩⟩
    · rw [if_neg h0]
      by_cases h1 : remaining - min remaining buf.length = 0
      · rw [if_pos h1]
        have ht : min remaining buf.length = remaining := by omega
        refine ⟨?_, ?_, ?_, Or.inr ⟨i, c :: cs, rfl, hi, rfl, ?_⟩⟩
        · rw [ht, ← hinv', List.take_append_of_le_length (by omega)]
        · rw [ht]
          simp only [List.length_take]
          omega
        · simp only [List.length_take]
          omega
        · rw [ht]
          simp only [List.flatten_cons, List.append_assoc]
          rw [drop_add pcs.flatten pos remaining, ← hinv',
            List.drop_append_of_le_length (by omega)]
      · rw [if_neg h1]
        have ht : min remaining buf.length = buf.length := by omega
        have hbufS : buf = (pcs.flatten.drop pos).take buf.length := by
          rw [← hinv', List.take_left]
        have hdropbuf : (pcs.flatten.drop pos).drop buf.length
            = c ++ (cs.flatten ++ (pcs.drop (i + 1)).flatten) := by
          rw [← hinv', List.drop_left]
        by_cases hov : c.length > remaining - min remaining buf.length
        · rw [if_pos hov]
          rw [ht] at hov ⊢
          refine ⟨?_, ?_, ?_, Or.inr ⟨i, cs, rfl, hi, rfl, ?_⟩⟩
          · rw [List.take_length]
            have htake : (pcs.flatten.drop pos).take remaining
                = (pcs.flatten.drop pos).take (buf.length + (remaining - buf.length)) := by
              congr 1
              omega
            rw [htake, List.take_add, hdropbuf, ← hbufS,
              List.take_append_of_le_length (by omega)]
          · simp only [List.length_take, List.length_drop]
            omega
          · simp only [List.length_take, List.length_drop]
            omega
          · rw [drop_add pcs.flatten (pos + buf.length) (remaining - buf.length),
              drop_add pcs.flatten pos buf.length, hdropbuf,
              List.drop_append_of_le_length (by omega)]
            simp [List.append_assoc]
        · rw [if_neg hov]
          rw [ht] at hov ⊢
          have hrec := ihr (remaining - buf.length - c.length) [] (pos + buf.length + c.length)
            (by omega)
            (by
              rw [List.nil_append, drop_add pcs.flatten (pos + buf.length) c.length,
                drop_add pcs.flatten pos buf.length, hdropbuf, List.drop_left])
          obtain ⟨ha, hb, hc2⟩ := hrec
          refine ⟨?_, ?_, ?_⟩
          · rw [List.take_length, List.drop_length, ha]
            have hsuffix : pcs.flatten.drop (pos + buf.length + c.length)
                = cs.flatten ++ (pcs.drop (i + 1)).flatten := by
              rw [drop_add pcs.flatten (pos + buf.length) c.length,
                drop_add pcs.flatten pos buf.length, hdropbuf, List.drop_left]
            have htake : (pcs.flatten.drop pos).take remaining
                = (pcs.flatten.drop pos).take
                    (buf.length + (c.length + (remaining - buf.length - c.length))) := by
              congr 1
              omega
            rw [htake, List.take_add, hsuffix, ← hbufS]
            rw [hdropbuf, List.take_add, List.take_left, List.drop_left]
            simp [List.append_assoc]
          · rw [List.drop_length, hb]
            simp only [List.length_take, List.length_drop]
            omega
          · rw [List.drop_length]
            exact hc2

end Download

namespace Download

/-- `read(n)` on any reachable proxy state returns exactly the next `n` bytes
of the logical content (or fewer at the end), advances `position` by the
bytes returned, and leaves the proxy in a reachable state again. -/
theorem read_spec (cfg : DConfig) (pcs : List (List Nat)) (hv : Valid cfg pcs)
    (hne : pcs ≠ []) (st : DState) (hok : StateOK cfg pcs st) (n : Nat) :
    (read cfg st n).1 = (pcs.flatten.drop st.position).take n ∧
    (read cfg st n).2.position
        = st.position + ((pcs.flatten.drop st.position).take n).length ∧
    StateOK cfg pcs (read cfg st n).2 := by
  have hlenparts : cfg.parts.length = pcs.length := by
    rw [hv.1, mkParts_length, List.length_map]
  obtain ⟨hpos, hcase⟩ := hok
  by_cases h0 : n = 0
  · subst h0
    simp only [read, if_pos rfl]
    exact ⟨by simp, by simp, hpos, hcase⟩
  · simp only [read, if_neg h0]
    rcases hcase with ⟨hidx, hstream, hbuf⟩ | ⟨i, rest, hidx, hilt, hstream, hinv⟩
    · -- no stream open: `_ensure_stream` locates and opens the covering part
      obtain ⟨i, off, hloc, hilt, hsuf⟩ := locatePart_spec cfg pcs st.position hv hne hpos
      have hens : ensureStream cfg st
          = { st with partIdx := (i : Int), stream := some (cfg.chunks i off) } := by
        simp only [ensureStream]
        rw [if_pos (Or.inl (by rw [hidx]; decide)), hloc]
        simp only [openPart, hstream]
        rw [if_neg (by push_neg; constructor; omega; rw [hlenparts]; omega)]
        simp
      rw [hens]
      have hinv : st.buffer ++ (cfg.chunks i off).flatten ++ (pcs.drop (i + 1)).flatten
          = pcs.flatten.drop st.position := by
        rw [hbuf, hv.2.2 i off hilt, List.nil_append, hsuf]
      exact readLoop_spec cfg pcs hv (pcs.length - i) i rfl hilt
        (cfg.chunks i off) n st.buffer st.position hpos hinv
    · -- a part stream is already open: `_ensure_stream` is a no-op
      have hens : ensureStream cfg st = st := by
        simp only [ensureStream]
        rw [if_neg (by push_neg; constructor; omega; rw [hstream]; simp)]
      rw [hens, hidx, hstream]
      exact readLoop_spec cfg pcs hv (pcs.length - i) i rfl hilt
        rest n st.buffer st.position hpos hinv

/-- `seek(k)` (absolute) clamps the target into `[0, content_length]`; when
the position changes, the buffer and the open part stream are discarded; the
resulting state is reachable again. -/
theorem seek_spec (cfg : DConfig) (pcs : List (List Nat)) (hv : Valid cfg pcs)
    (st : DState) (hok : StateOK cfg pcs st) (offset : Int) :
    (seek cfg st offset 0).position
        = (max 0 (min offset (cfg.contentLength : Int))).toNat ∧
    StateOK cfg pcs (seek cfg st offset 0) := by
  have hL : (max 0 (min offset (cfg.contentLength : Int))).toNat ≤ pcs.flatten.length := by
    rw [hv.2.1]
    omega
  simp only [seek, reduceIte]
  by_cases h : (max 0 (min offset (cfg.contentLength : Int))).toNat ≠ st.position
  · rw [if_pos h]
    exact ⟨rfl, hL, Or.inl ⟨rfl, rfl, rfl⟩⟩
  · rw [if_neg h]
    push_neg at h
    exact ⟨h.symm, hok⟩

end Download

/-! ## Non-split download (`FileObjectDownloadProxy` without `split_info`) -/

namespace NS

/-- Static data: `content_length` and the backend oracle — `chunks p` is the
chunk sequence served for a GET with `Range: bytes=p-` (no Range when
`p = 0`). -/
structure NSConfig where
  contentLength : Nat
  chunks : Nat → List (List Nat)

/-- Non-split state: `self.position`, `self._buffer` and the remaining chunks
of `self.stream`. -/
structure NSState where
  position : Nat
  buffer : List Nat
  stream : Option (List (List Nat))
deriving DecidableEq

/-- `_ensure_stream`, non-split branch (`fileObjectProxy.py:71-93`). -/
def ensure (cfg : NSConfig) (st : NSState) : NSState :=
  if st.stream = none then { st with stream := some (cfg.chunks st.position) } else st

/-- Result of the non-split sized-read loop: bytes collected, remaining need,
chunks left in the stream, and the overflow spilled into `self._buffer`
(`none` when no overflow happened — the buffer then keeps its old value). -/
structure ReadResult where
  data : List Nat
  remaining : Nat
  streamLeft : List (List Nat)
  spill : Option (List Nat)

/-- The `while bytes_remaining > 0` loop of the non-split `read`
(`fileObjectProxy.py:230-250`).  Note: this loop never reads `self._buffer`;
overflow is spilled there (`fileObjectProxy.py:247`) but only ever
overwritten, never returned.  An empty chunk breaks the loop
(`if not chunk: break`). -/
def readLoopNS (remaining : Nat) : List (List Nat) → ReadResult
  | [] => ⟨[], remaining, [], none⟩
  | c :: cs =>
    if remaining = 0 then ⟨[], remaining, c :: cs, none⟩
    else if c.length = 0 then ⟨[], remaining, cs, none⟩
    else if c.length ≤ remaining then
      ⟨c ++ (readLoopNS (remaining - c.length) cs).data,
       (readLoopNS (remaining - c.length) cs).remaining,
       (readLoopNS (remaining - c.length) cs).streamLeft,
       (readLoopNS (remaining - c.length) cs).spill⟩
    else ⟨c.take remaining, 0, cs, some (c.drop remaining)⟩

/-- The non-split branch of `read` for `size ≥ 0`
(`fileObjectProxy.py:217-256`): `bytes_read = size - bytes_remaining` is
added to the position; the spilled overflow (if any) overwrites the
buffer. -/
def readNS (cfg : NSConfig) (st : NSState) (size : Nat) : List Nat × NSState :=
  match (ensure cfg st).stream with
  | some s =>
    ((readLoopNS size s).data,
     { position := (ensure cfg st).position + (size - (readLoopNS size s).remaining),
       buffer :=
         match (readLoopNS size s).spill with
         | some b => b
         | none => (ensure cfg st).buffer,
       stream := some (readLoopNS size s).streamLeft })
  | none => ([], ensure cfg st)

/-- `seek`, non-split branch (`fileObjectProxy.py:262-301`): clamp, and when
the position changes clear the buffer and drop the live stream. -/
def seekNS (cfg : NSConfig) (st : NSState) (offset : Int) (whence : Nat) : NSState :=
  let newPos : Int :=
    if whence = 0 then offset
    else if whence = 1 then (st.position : Int) + offset
    else (cfg.contentLength : Int) + offset
  let clamped : Nat := (max 0 (min newPos (cfg.contentLength : Int))).toNat
  if clamped ≠ st.position then { position := clamped, buffer := [], stream := none }
  else st

/-- Consistency of the backend oracle with the actual content: every GET at
offset `p` streams exactly `content.drop p`, in non-empty chunks. -/
def ValidNS (cfg : NSConfig) (content : List Nat) : Prop :=
  cfg.contentLength = content.length ∧
  (∀ p, (cfg.chunks p).flatten = content.drop p) ∧
  (∀ p c, c ∈ cfg.chunks p → c ≠ [])

theorem readLoopNS_data (remaining : Nat) (s : List (List Nat))
    (hne : ∀ c ∈ s, c ≠ []) :
    (readLoopNS remaining s).data = s.flatten.take remaining := by
  induction s generalizing remaining with
  | nil => simp [readLoopNS]
  | cons c cs ih =>
    by_cases h0 : remaining = 0
    · subst h0
      simp [readLoopNS]
    · have hc : c ≠ [] := hne c (List.mem_cons_self c cs)
      have hcl : ¬ c.length = 0 := fun h => hc (List.length_eq_zero.mp h)
      by_cases hle : c.length ≤ remaining
      · have e : readLoopNS remaining (c :: cs)
            = ⟨c ++ (readLoopNS (remaining - c.length) cs).data,
               (readLoopNS (remaining - c.length) cs).remaining,
               (readLoopNS (remaining - c.length) cs).streamLeft,
               (readLoopNS (remaining - c.length) cs).spill⟩ := by
          simp only [readLoopNS]
          rw [if_neg h0, if_neg hcl, if_pos hle]
        rw [e]
        have ihr := ih (remaining - c.length) (fun d hd => hne d (List.mem_cons_of_mem c hd))
        simp only [List.flatten_cons]
        rw [ihr]
        have htake : (c ++ cs.flatten).take remaining
            = (c ++ cs.flatten).take (c.length + (remaining - c.length)) := by
          congr 1
          omega
        rw [htake, List.take_add, List.take_left, List.drop_left]
      · have e : readLoopNS remaining (c :: cs)
            = ⟨c.take remaining, 0, cs, some (c.drop remaining)⟩ := by
          simp only [readLoopNS]
          rw [if_neg h0, if_neg hcl, if_neg hle]
        rw [e]
        simp only [List.flatten_cons]
        rw [List.take_append_of_le_length (by omega)]

/-- A single `read(n)` from a state whose stream (if open) is positioned
consistently returns the next `n` bytes of the content. -/
theorem readNS_data (cfg : NSConfig) (content : List Nat) (hv : ValidNS cfg content)
    (st : NSState) (n : Nat)
    (hst : st.stream = none ∨
      (∃ s, st.stream = some s ∧ s.flatten = content.drop st.position ∧ ∀ c ∈ s, c ≠ [])) :
    (readNS cfg st n).1 = (content.drop st.position).take n := by
  rcases hst with hnone | ⟨s, hsome, hflat, hne⟩
  · have hens : ensure cfg st = { st with stream := some (cfg.chunks st.position) } := by
      simp [ensure, hnone]
    simp only [readNS, hens]
    rw [readLoopNS_data n (cfg.chunks st.position) (fun c hc => hv.2.2 st.position c hc)]
    rw [hv.2.1 st.position]
  · have hens : ensure cfg st = st := by
      simp [ensure, hsome]
    simp only [readNS, hens, hsome]
    rw [readLoopNS_data n s hne, hflat]

end NS

/-! ## Concrete download scenarios -/

/-- The spec's split-file example: 250 bytes in parts of 100, 100 and 50. -/
def pcs3 : List (List Nat) :=
  [List.range' 0 100, List.range' 100 100, List.range' 200 50]

/-- A consistent backend for the split example: each part opened at an offset
streams its suffix in one chunk. -/
def cfg3 : Download.DConfig :=
  { parts := Download.mkParts 0 (pcs3.map List.length), contentLength := 250,
    chunks := fun i off => [(pcs3.getD i []).drop off] }

/-- A fresh split download proxy. -/
def st3 : Download.DState :=
  { position := 0, buffer := [], partIdx := -1, stream := none }

/-- An 8-byte non-split file streamed in two 4-byte chunks. -/
def cfg4 : NS.NSConfig :=
  { contentLength := 8,
    chunks := fun p => [((List.range 8).drop p).take 4, ((List.range 8).drop p).drop 4] }

/-- A fresh non-split download proxy. -/
def st4 : NS.NSState := { position := 0, buffer := [], stream := none }

/-- C3, the claim as stated is false: on a NON-split proxy, after a read that
buffered overflow bytes, `seek` to the current position discards nothing (the
position did not change) and the following read skips the buffered bytes:
`seek(2); read(2)` returns bytes 4..5 instead of bytes 2..3. -/
theorem C3_counterexample :
    (NS.readNS cfg4 st4 2).1 = [0, 1] ∧
    (NS.readNS cfg4 st4 2).2.buffer = [2, 3] ∧
    (NS.readNS cfg4 (NS.seekNS cfg4 (NS.readNS cfg4 st4 2).2 2 0) 2).1 = [4, 5] ∧
    (NS.readNS cfg4 (NS.seekNS cfg4 (NS.readNS cfg4 st4 2).2 2 0) 2).1
      ≠ ((List.range 8).drop 2).take 2 := by
  decide

/-- C3 (amended): `seek(k)` clamps into `[0, L]` and discards buffered bytes
and the live stream when the new position differs from the current one.  For
split files, `seek(k); read(n)` returns exactly bytes `k..min(k+n, L)` for
every reachable proxy state, every `0 ≤ k ≤ L` and every `n ≥ 0` — the part
covering `k` is selected and opened at the intra-part offset.  For non-split
files the same law holds whenever the seek changes the position or no stream
is live; when the seek leaves the position unchanged over a live stream with
buffered overflow, the buffered bytes are skipped (`C3_counterexample`). -/
theorem C3_seek_read_law :
    (∀ (cfg : Download.DConfig) (pcs : List (List Nat)) (st : Download.DState)
       (k : Int) (n : Nat),
      Download.Valid cfg pcs → pcs ≠ [] → Download.StateOK cfg pcs st →
      0 ≤ k → k ≤ (pcs.flatten.length : Int) →
      (Download.read cfg (Download.seek cfg st k 0) n).1
        = (pcs.flatten.drop k.toNat).take n) ∧
    (∀ (cfg : NS.NSConfig) (content : List Nat) (st : NS.NSState) (k : Int) (n : Nat),
      NS.ValidNS cfg content →
      (st.stream = none ∨ (max 0 (min k (cfg.contentLength : Int))).toNat ≠ st.position) →
      (NS.readNS cfg (NS.seekNS cfg st k 0) n).1
        = (content.drop ((max 0 (min k (cfg.contentLength : Int))).toNat)).take n) := by
  constructor
  · intro cfg pcs st k n hv hne hok h0 hL
    obtain ⟨hpos, hok'⟩ := Download.seek_spec cfg pcs hv st hok k
    have hclamp : (max 0 (min k (cfg.contentLength : Int))).toNat = k.toNat := by
      rw [hv.2.1]
      omega
    rw [hclamp] at hpos
    have := (Download.read_spec cfg pcs hv hne (Download.seek cfg st k 0) hok' n).1
    rw [this, hpos]
  · intro cfg content st k n hv hk
    set clamped := (max 0 (min k (cfg.contentLength : Int))).toNat with hcl
    by_cases hch : clamped ≠ st.position
    · have hseek : NS.seekNS cfg st k 0
          = { position := clamped, buffer := [], stream := none } := by
        simp only [NS.seekNS, reduceIte, ← hcl]
        rw [if_pos hch]
      rw [hseek]
      exact NS.readNS_data cfg content hv _ n (Or.inl rfl)
    · push_neg at hch
      have hseek : NS.seekNS cfg st k 0 = st := by
        simp only [NS.seekNS, reduceIte, ← hcl]
        rw [if_neg (by omega)]
      rw [hseek, hch]
      rcases hk with hnone | hne2
      · exact NS.readNS_data cfg content hv st n (Or.inl hnone)
      · exact absurd hch hne2

/-- C3 witness: the amended law at the spec's worked example — on the
250-byte split file with parts `[100, 100, 50]`, `seek(150); read(60)`
returns bytes 150..209. -/
theorem C3_witness :
    Download.Valid cfg3 pcs3 ∧
    (Download.read cfg3 (Download.seek cfg3 st3 150 0) 60).1 = List.range' 150 60 := by
  have hv : Download.Valid cfg3 pcs3 := by
    refine ⟨rfl, by decide, ?_⟩
    intro i off hi
    simp [cfg3]
  refine ⟨hv, ?_⟩
  have := C3_seek_read_law.1 cfg3 pcs3 st3 150 60 hv (by decide)
    ⟨by decide, Or.inl ⟨rfl, rfl, rfl⟩⟩ (by decide) (by decide)
  rw [this]
  decide

/-- C4: the non-split `read` never returns the bytes it spilled into
`self._buffer`: reading 2 bytes twice from an 8-byte file chunked in 4-byte
chunks yields bytes 0..1 then bytes 4..5 — bytes 2..3 sit in the buffer and
are lost, so consecutive reads are NOT consecutive slices of the content. -/
theorem C4_nonsplit_buffer_lost :
    (NS.readNS cfg4 st4 2).1 = [0, 1] ∧
    (NS.readNS cfg4 st4 2).2.buffer = [2, 3] ∧
    (NS.readNS cfg4 (NS.readNS cfg4 st4 2).2 2).1 = [4, 5] ∧
    (NS.readNS cfg4 (NS.readNS cfg4 st4 2).2 2).1 ≠ ((List.range 8).drop 2).take 2 := by
  decide

/-! ## PROPFIND split-file resolution (`Utils.propfind`, `Utils.get_split_info`)

The model starts from the parsed listing (a key → meta association list; the
XML parsing itself, `utils.py:36-64`, is not modelled) and covers the
split-file post-pass of `utils.py:66-100`.  Manifest GETs are an oracle
`manifests : String → Option J` (`none` models a failed fetch: the meta is
left untouched, `utils.py:119-121`). -/

namespace Propfind

/-- Cached resource meta — the fields the claims are about. -/
structure PMeta where
  isCollection : Bool
  contentLength : Option Nat
  splitInfo : Option J

/-- `name = key[:-len('.splitinfo')]` (`utils.py:73`). -/
def stripSplitinfo (k : String) : String := dropRightStr k 10

/-- The `need_remove_list` membership test (`utils.py:70-78`): every
`.splitinfo` entry, and every entry whose last `'.'`-separated component of
the full key begins with `part`. -/
def needRemove (k : String) : Bool :=
  pyEndsWith k ".splitinfo" || pyStartsWith (lastDotComponent k) "part"

/-- The `split_file_list` (`utils.py:71-76`): heads derived from a
`.splitinfo` key whose stripped name itself is present in the listing. -/
def splitHeads (result : List (String × PMeta)) : List String :=
  (result.filter (fun e => pyEndsWith e.1 ".splitinfo"
      && result.any (fun e2 => decide (e2.1 = stripSplitinfo e.1)))).map
    (fun e => stripSplitinfo e.1)

/-- `Utils.get_split_info` (`utils.py:106-121`): on success it assigns
`meta['content_length'] = manifest['meta']['content_length']` and
`meta['split_info'] = manifest`; a missing key raises inside the `try`, so the
meta stays untouched. -/
def applySplitInfo (m : PMeta) (j : J) : PMeta :=
  match jLookup j "meta" with
  | some metaObj =>
    match jLookup metaObj "content_length" with
    | some (J.num n) => { m with contentLength := some n, splitInfo := some j }
    | _ => m
  | _ => m

/-- The split-file post-pass of `Utils.propfind` (`utils.py:66-100`): merge
the fetched manifest into every split head, then drop the marked physical
entries (`result.pop(key)` for each `need_remove_list` key = keep the
rest). -/
def resolvePropfind (result : List (String × PMeta)) (manifests : String → Option J) :
    List (String × PMeta) :=
  let heads := splitHeads result
  let updated := result.map (fun e =>
    if heads.any (fun h => decide (h = e.1)) then
      match manifests e.1 with
      | some j => (e.1, applySplitInfo e.2 j)
      | none => e
    else e)
  updated.filter (fun e => ! needRemove e.1)

/-- A manifest in the documented sidecar format whose `meta.content_length`
matches the sum of the declared `fileSize` values. -/
def ManifestOK (j : J) : Prop :=
  ∃ (entries : List J) (metaObj : J),
    jLookup j "splitFileList" = some (J.arr entries) ∧
    jLookup j "meta" = some metaObj ∧
    jLookup metaObj "content_length"
      = some (J.num ((entries.map (fun e => jGetNat e "fileSize" 0)).sum))

end Propfind

namespace Propfind

/-- One `splitFileList` entry of the worked listing scenario (documented
sidecar format, key `fileSize`). -/
def exEntryJ (n : String) : J :=
  J.obj [("fileName", J.str n), ("fileSize", J.num 100)]

/-- The manifest of `/a/big.dat` in the worked listing scenario:
`meta.content_length = 300`, three parts of 100 bytes each. -/
def exManifest : J :=
  J.obj [("meta", J.obj [("content_length", J.num 300)]),
         ("splitFileList",
          J.arr [exEntryJ "big.dat", exEntryJ "big.dat.part001",
                 exEntryJ "big.dat.part002"])]

/-- The parsed Depth-1 listing of the worked scenario, before split
resolution. -/
def exListing : List (String × PMeta) :=
  [("/a/", ⟨true, none, none⟩),
   ("/a/file.bin", ⟨false, some 120, none⟩),
   ("/a/big.dat", ⟨false, some 100, none⟩),
   ("/a/big.dat.part001", ⟨false, some 100, none⟩),
   ("/a/big.dat.part002", ⟨false, some 100, none⟩),
   ("/a/big.dat.splitinfo", ⟨false, some 85, none⟩)]

/-- Manifest fetches of the worked scenario: only the head has one. -/
def exOracle (k : String) : Option J :=
  if k = "/a/big.dat" then some exManifest else none

/-- A plain file meta used in the unrelated-name examples. -/
def pm0 : PMeta := ⟨false, some 5, none⟩

/-- A listing holding ordinary files whose names merely look split-related:
a key with no dot beginning `part`, and a key whose last component is
`party`. -/
def c10Listing : List (String × PMeta) :=
  [("partners", pm0), ("/a/x.party", pm0), ("/a/ok.txt", pm0)]

/-- Anatomy of an output entry of `resolvePropfind`: it survived the
`need_remove_list` pass, and it descends from an input entry with the same
key, rewritten by the manifest exactly when the key is a fetched split
head. -/
theorem resolvePropfind_mem (result : List (String × PMeta))
    (manifests : String → Option J) (e : String × PMeta)
    (he : e ∈ resolvePropfind result manifests) :
    needRemove e.1 = false ∧
    ∃ a ∈ result, a.1 = e.1 ∧
      ((splitHeads result).any (fun h => decide (h = a.1)) = true →
        ∀ j, manifests a.1 = some j → e.2 = applySplitInfo a.2 j) := by
  simp only [resolvePropfind] at he
  rw [List.mem_filter] at he
  obtain ⟨hmem, hkeep⟩ := he
  rw [List.mem_map] at hmem
  obtain ⟨a, ha, hfa⟩ := hmem
  constructor
  · cases hnr : needRemove e.1 with
    | false => rfl
    | true => rw [hnr] at hkeep; exact absurd hkeep (by simp)
  · refine ⟨a, ha, ?_⟩
    by_cases hc : (splitHeads result).any (fun h => decide (h = a.1)) = true
    · rw [if_pos hc] at hfa
      cases hm : manifests a.1 with
      | none =>
        rw [hm] at hfa
        subst hfa
        exact ⟨rfl, fun _ j hj => absurd hj (by simp)⟩
      | some j =>
        rw [hm] at hfa
        subst hfa
        refine ⟨rfl, fun _ j2 hj2 => ?_⟩
        cases hj2
        rfl
    · rw [if_neg hc] at hfa
      subst hfa
      exact ⟨rfl, fun h => absurd h hc⟩

end Propfind

/-- C2: after split-file resolution no `.splitinfo` or `*.partNNN` physical
entry remains in the listing, every fetched split head carries the manifest
as its `split_info`, its `content_length` is the sum of the declared
`fileSize` values across the manifest's `splitFileList` (manifests being in
the documented sidecar format), and the worked scenario (manifest
`content_length = 300`, parts `[100,100,100]`) resolves to exactly `/a/`,
`/a/file.bin` and `/a/big.dat` with `content_length = 300`. -/
theorem C2_split_resolution (result : List (String × Propfind.PMeta))
    (manifests : String → Option J)
    (hman : ∀ k j, manifests k = some j → Propfind.ManifestOK j) :
    (∀ e ∈ Propfind.resolvePropfind result manifests,
        pyEndsWith e.1 ".splitinfo" = false ∧
        pyStartsWith (lastDotComponent e.1) "part" = false) ∧
    (∀ e ∈ Propfind.resolvePropfind result manifests,
        (Propfind.splitHeads result).any (fun h => decide (h = e.1)) = true →
        ∀ j, manifests e.1 = some j →
          e.2.splitInfo = some j ∧
          ∀ entries, jLookup j "splitFileList" = some (J.arr entries) →
            e.2.contentLength
              = some ((entries.map (fun x => jGetNat x "fileSize" 0)).sum)) ∧
    Propfind.resolvePropfind Propfind.exListing Propfind.exOracle =
      [("/a/", ⟨true, none, none⟩),
       ("/a/file.bin", ⟨false, some 120, none⟩),
       ("/a/big.dat", ⟨false, some 300, some Propfind.exManifest⟩)] := by
  refine ⟨?_, ?_, rfl⟩
  · intro e he
    obtain ⟨hnr, -⟩ := Propfind.resolvePropfind_mem result manifests e he
    simp only [Propfind.needRemove, Bool.or_eq_false_iff] at hnr
    exact hnr
  · intro e he hhead j hj
    obtain ⟨-, a, ha, hkey, hupd⟩ := Propfind.resolvePropfind_mem result manifests e he
    rw [← hkey] at hhead hj
    have he2 : e.2 = Propfind.applySplitInfo a.2 j := hupd hhead j hj
    obtain ⟨entries, metaObj, hsl, hmeta, hcl⟩ := hman _ j hj
    simp only [Propfind.applySplitInfo, hmeta, hcl] at he2
    refine ⟨by rw [he2], ?_⟩
    intro entries2 hsl2
    rw [hsl] at hsl2
    cases hsl2
    rw [he2]

/-- C2 witness: in the worked scenario the oracle's only manifest is
well-formed, and the resolved listing keeps `/a/big.dat` free of split
markers with the manifest attached and `content_length = 300`. -/
theorem C2_witness :
    (∀ k j, Propfind.exOracle k = some j → Propfind.ManifestOK j) ∧
    (pyEndsWith "/a/big.dat" ".splitinfo" = false ∧
      pyStartsWith (lastDotComponent "/a/big.dat") "part" = false) ∧
    Propfind.PMeta.splitInfo ⟨false, some 300, some Propfind.exManifest⟩
      = some Propfind.exManifest ∧
    Propfind.PMeta.contentLength ⟨false, some 300, some Propfind.exManifest⟩ = some 300 := by
  have hman : ∀ k j, Propfind.exOracle k = some j → Propfind.ManifestOK j := by
    intro k j hj
    by_cases hk : k = "/a/big.dat"
    · rw [Propfind.exOracle, if_pos hk] at hj
      cases hj
      exact ⟨[Propfind.exEntryJ "big.dat", Propfind.exEntryJ "big.dat.part001",
              Propfind.exEntryJ "big.dat.part002"],
             J.obj [("content_length", J.num 300)], rfl, rfl, rfl⟩
    · rw [Propfind.exOracle, if_neg hk] at hj
      cases hj
  have h := C2_split_resolution Propfind.exListing Propfind.exOracle hman
  have hmem : ("/a/big.dat", (⟨false, some 300, some Propfind.exManifest⟩ : Propfind.PMeta))
      ∈ Propfind.resolvePropfind Propfind.exListing Propfind.exOracle := by
    rw [h.2.2]
    exact List.mem_cons_of_mem _ (List.mem_cons_of_mem _ (List.mem_cons_self _ _))
  exact ⟨hman, h.1 _ hmem, rfl, rfl⟩

/-- C10: the resolution pass removes every entry whose key's last
`'.'`-separated component begins with `part` — the whole key when it has no
dot — and every entry ending in `.splitinfo`, with no regard to whether a
split head exists; in particular the ordinary keys `partners` (dot-free) and
`/a/x.party` are hidden from the resolved listing. -/
theorem C10_part_filter (result : List (String × Propfind.PMeta))
    (manifests : String → Option J) (k : String) (m : Propfind.PMeta)
    (hk : pyStartsWith (lastDotComponent k) "part" = true ∨
      pyEndsWith k ".splitinfo" = true) :
    (k, m) ∉ Propfind.resolvePropfind result manifests ∧
    lastDotComponent "partners" = "partners" ∧
    lastDotComponent "/a/x.party" = "party" ∧
    Propfind.resolvePropfind Propfind.c10Listing (fun _ => none)
      = [("/a/ok.txt", Propfind.pm0)] := by
  refine ⟨?_, rfl, rfl, rfl⟩
  intro hmem
  obtain ⟨hnr, -⟩ :=
    Propfind.resolvePropfind_mem result manifests (k, m) hmem
  simp only [Propfind.needRemove, Bool.or_eq_false_iff] at hnr
  rcases hk with hk | hk
  · rw [hk] at hnr
    exact absurd hnr.2 (by simp)
  · rw [hk] at hnr
    exact absurd hnr.1 (by simp)

/-- C10 witness: the dot-free key `partners` satisfies the removal predicate
and is indeed absent from the resolved listing of the example. -/
theorem C10_witness :
    (pyStartsWith (lastDotComponent "partners") "part" = true ∨
      pyEndsWith "partners" ".splitinfo" = true) ∧
    ("partners", Propfind.pm0)
      ∉ Propfind.resolvePropfind Propfind.c10Listing (fun _ => none) :=
  ⟨Or.inl (by decide),
   (C10_part_filter Propfind.c10Listing (fun _ => none) "partners" Propfind.pm0
      (Or.inl (by decide))).1⟩

/-! ## Metadata-cache invalidation (`WebDAVProxy.clear_resource_meta`)

The `TTLCache` is modelled as an association list with distinct keys; the
source's `pop(path)` is dropping the exact entry and its
`for key in keys: if key.startswith(path): pop(key)` loop is dropping every
prefix-matching entry. -/

namespace Cache

/-- `WebDAVProxy.clear_resource_meta` (`provider.py:94-103`): exact removal
only when the path has no trailing slash AND is present in the cache;
otherwise removal of every key starting with the path. -/
def clear_resource_meta {α : Type} (cache : List (String × α)) (path : String) :
    List (String × α) :=
  if (! pyEndsWith path "/") && cache.any (fun e => decide (e.1 = path)) then
    cache.filter (fun e => ! decide (e.1 = path))
  else
    cache.filter (fun e => ! pyStartsWith e.1 path)

end Cache

/-- C6 counterexample: invalidating the absent file path `/a/file` (no
trailing slash) removes the unrelated entry `/a/file.bin`, whose key merely
starts with that path, instead of leaving it unchanged. -/
theorem C6_counterexample :
    pyEndsWith "/a/file" "/" = false ∧
    (("/a/file.bin", 1) ∈ ([("/a/file.bin", (1 : Nat))] : List (String × Nat))) ∧
    "/a/file.bin" ≠ "/a/file" ∧
    Cache.clear_resource_meta [("/a/file.bin", (1 : Nat))] "/a/file" = [] := by
  decide

/-- C6 (amended): invalidating a file path removes only the exact entry
WHEN the path is present in the cache; when it is absent, or when the path
has a trailing slash, every entry whose key starts with the path is removed
— so after invalidating a collection path no prefix-matching key
survives. -/
theorem C6_invalidate {α : Type} (cache : List (String × α)) (path : String) :
    (pyEndsWith path "/" = false →
      cache.any (fun e => decide (e.1 = path)) = true →
      Cache.clear_resource_meta cache path
        = cache.filter (fun e => ! decide (e.1 = path))) ∧
    (pyEndsWith path "/" = true →
      Cache.clear_resource_meta cache path
        = cache.filter (fun e => ! pyStartsWith e.1 path)) ∧
    (cache.any (fun e => decide (e.1 = path)) = false →
      Cache.clear_resource_meta cache path
        = cache.filter (fun e => ! pyStartsWith e.1 path)) ∧
    (∀ e ∈ Cache.clear_resource_meta cache path,
      pyEndsWith path "/" = true → pyStartsWith e.1 path = false) := by
  refine ⟨fun h1 h2 => ?_, fun h => ?_, fun h => ?_, fun e he h => ?_⟩
  · rw [Cache.clear_resource_meta, if_pos (by rw [h1, h2]; rfl)]
  · rw [Cache.clear_resource_meta, if_neg (by rw [h]; simp)]
  · rw [Cache.clear_resource_meta, if_neg (by rw [h]; simp)]
  · rw [Cache.clear_resource_meta, if_neg (by rw [h]; simp)] at he
    rw [List.mem_filter] at he
    simpa using he.2

/-- C6 witness: exact-entry removal for the present file path `/a/x` keeps
the prefix-extending key `/a/x.bin`; prefix removal for the collection path
`/a/` drops both `/a/` keys and keeps `/b/y`. -/
theorem C6_witness :
    (pyEndsWith "/a/x" "/" = false ∧
      List.any [("/a/x", (1 : Nat)), ("/a/x.bin", 2)]
        (fun e => decide (e.1 = "/a/x")) = true) ∧
    Cache.clear_resource_meta [("/a/x", (1 : Nat)), ("/a/x.bin", 2)] "/a/x"
      = [("/a/x.bin", 2)] ∧
    pyEndsWith "/a/" "/" = true ∧
    Cache.clear_resource_meta [("/a/", (0 : Nat)), ("/a/x", 1), ("/b/y", 2)] "/a/"
      = [("/b/y", 2)] := by
  refine ⟨⟨by decide, by decide⟩, ?_, by decide, ?_⟩
  · exact ((C6_invalidate [("/a/x", (1 : Nat)), ("/a/x.bin", 2)] "/a/x").1
      (by decide) (by decide)).trans (by decide)
  · exact ((C6_invalidate [("/a/", (0 : Nat)), ("/a/x", 1), ("/b/y", 2)] "/a/").2.1
      (by decide)).trans (by decide)

/-! ## Non-collection delete (`WebDAVProxyNonCollection.delete`)

Backend DELETE calls are an oracle `deleteStatus : String → Nat` from URL to
HTTP status.  The Python returns `None` when the handle is marked moved and
the (possibly empty) error list otherwise; the cache is cleared exactly when
that list is empty. -/

namespace Del

/-- `response.status_code not in (200, 204)` negated (`nonCollection.py:149`). -/
def statusOkDelete (s : Nat) : Bool := decide (s = 200) || decide (s = 204)

/-- Observable outcome of a `delete` call: the URLs DELETEd in order, the
returned value (`none` = Python `None`), and whether
`clear_resource_meta` ran. -/
structure DeleteResult where
  requested : List String
  errList : Option (List (String × Nat))
  cacheCleared : Bool

/-- `WebDAVProxyNonCollection.delete` (`nonCollection.py:124-159`).  The
split branch mirrors `split_info.get('splitFileList')[1:]` (a manifest whose
`splitFileList` is not an array would raise in Python; modelled runs use the
well-formed shape assumed by the theorems). -/
def delete (isMoved : Bool) (backendUrl : String) (splitInfo : Option J)
    (deleteStatus : String → Nat) : DeleteResult :=
  if isMoved then ⟨[], none, false⟩
  else
    let needDeleteList :=
      backendUrl ::
      (match splitInfo with
       | some j =>
           (match jLookup j "splitFileList" with
            | some (J.arr files) =>
                files.tail.map (fun f =>
                  rsplitSlashFolder backendUrl ++ "/" ++ jGetStr f "fileName" "")
            | _ => []) ++ [backendUrl ++ ".splitinfo"]
       | none => [])
    let errList := needDeleteList.filterMap (fun u =>
      if statusOkDelete (deleteStatus u) then none else some (u, deleteStatus u))
    ⟨needDeleteList, some errList, errList.isEmpty⟩

/-- The collected error list is empty exactly when every DELETE returned
200 or 204. -/
theorem errs_isEmpty_iff (l : List String) (st : String → Nat) :
    (l.filterMap (fun u =>
        if statusOkDelete (st u) then none else some (u, st u))).isEmpty = true
      ↔ ∀ u ∈ l, statusOkDelete (st u) = true := by
  induction l with
  | nil => simp
  | cons a l ih =>
    by_cases h : statusOkDelete (st a) = true
    · rw [List.filterMap_cons, if_pos h]
      simp [h, ih]
    · rw [List.filterMap_cons, if_neg h]
      exact iff_of_false (by simp)
        (fun hall => h (hall a (List.mem_cons_self a l)))

/-- Every collected pair is a requested URL with its failing status. -/
theorem mem_errs (l : List String) (st : String → Nat) (p : String × Nat)
    (h : p ∈ l.filterMap (fun u =>
        if statusOkDelete (st u) then none else some (u, st u))) :
    p.1 ∈ l ∧ p.2 = st p.1 ∧ statusOkDelete p.2 = false := by
  rw [List.mem_filterMap] at h
  obtain ⟨a, ha, hfa⟩ := h
  by_cases hok : statusOkDelete (st a) = true
  · rw [if_pos hok] at hfa
    cases hfa
  · rw [if_neg hok] at hfa
    cases hfa
    exact ⟨ha, rfl, by simpa using hok⟩

end Del

/-- The spec scenario's `splitFileList` entries for `/u`. -/
def c7entry (n : String) : J :=
  J.obj [("fileName", J.str n), ("fileSize", J.num 100)]

/-- The spec scenario's manifest for `/u`: head plus two parts. -/
def c7man : J :=
  J.obj [("meta", J.obj [("content_length", J.num 300)]),
         ("splitFileList",
          J.arr [c7entry "u", c7entry "u.part001", c7entry "u.part002"])]

/-- Backend responses of the partial-delete scenario: `u.part002` fails
with 500, everything else returns 204. -/
def c7status (u : String) : Nat :=
  if u = "http://backend/u.part002" then 500 else 204

/-- C7: deleting a split file DELETEs the head, each part named in the
manifest's `splitFileList` tail, and the `.splitinfo` sidecar; it returns
exactly the failing `(url, status)` pairs (the empty list on full success);
the cache entry is cleared exactly when every DELETE succeeded; and a handle
marked moved does nothing. -/
theorem C7_delete (backendUrl : String) (j : J) (files : List J)
    (deleteStatus : String → Nat)
    (hsl : jLookup j "splitFileList" = some (J.arr files)) :
    (Del.delete false backendUrl (some j) deleteStatus).requested
      = backendUrl ::
        (files.tail.map (fun f =>
          rsplitSlashFolder backendUrl ++ "/" ++ jGetStr f "fileName" "")
        ++ [backendUrl ++ ".splitinfo"]) ∧
    (∃ errs,
      (Del.delete false backendUrl (some j) deleteStatus).errList = some errs ∧
      (∀ p ∈ errs,
        p.1 ∈ (Del.delete false backendUrl (some j) deleteStatus).requested ∧
        p.2 = deleteStatus p.1 ∧ Del.statusOkDelete p.2 = false) ∧
      (errs = [] ↔
        ∀ u ∈ (Del.delete false backendUrl (some j) deleteStatus).requested,
          Del.statusOkDelete (deleteStatus u) = true)) ∧
    ((Del.delete false backendUrl (some j) deleteStatus).cacheCleared = true ↔
      ∀ u ∈ (Del.delete false backendUrl (some j) deleteStatus).requested,
        Del.statusOkDelete (deleteStatus u) = true) ∧
    Del.delete true backendUrl (some j) deleteStatus = ⟨[], none, false⟩ := by
  have hr : Del.delete false backendUrl (some j) deleteStatus
      = ⟨backendUrl ::
          (files.tail.map (fun f =>
            rsplitSlashFolder backendUrl ++ "/" ++ jGetStr f "fileName" "")
          ++ [backendUrl ++ ".splitinfo"]),
         some ((backendUrl ::
          (files.tail.map (fun f =>
            rsplitSlashFolder backendUrl ++ "/" ++ jGetStr f "fileName" "")
          ++ [backendUrl ++ ".splitinfo"])).filterMap (fun u =>
            if Del.statusOkDelete (deleteStatus u) then none
            else some (u, deleteStatus u))),
         ((backendUrl ::
          (files.tail.map (fun f =>
            rsplitSlashFolder backendUrl ++ "/" ++ jGetStr f "fileName" "")
          ++ [backendUrl ++ ".splitinfo"])).filterMap (fun u =>
            if Del.statusOkDelete (deleteStatus u) then none
            else some (u, deleteStatus u))).isEmpty⟩ := by
    simp only [Del.delete, hsl, if_neg Bool.false_ne_true]
  refine ⟨by rw [hr], ⟨_, by rw [hr], ?_, ?_⟩, ?_, rfl⟩
  · intro p hp
    rw [hr]
    exact Del.mem_errs _ deleteStatus p hp
  · rw [hr]
    rw [← List.isEmpty_iff]
    exact Del.errs_isEmpty_iff _ deleteStatus
  · rw [hr]
    exact Del.errs_isEmpty_iff _ deleteStatus

/-- C7 witness: in the partial-delete scenario (part002 returns 500) the
four physical URLs are requested, the returned error list is exactly the
failing pair, the cache is not cleared, and a moved handle is a no-op. -/
theorem C7_witness :
    jLookup c7man "splitFileList"
      = some (J.arr [c7entry "u", c7entry "u.part001", c7entry "u.part002"]) ∧
    (Del.delete false "http://backend/u" (some c7man) c7status).requested
      = ["http://backend/u", "http://backend/u.part001",
         "http://backend/u.part002", "http://backend/u.splitinfo"] ∧
    (Del.delete false "http://backend/u" (some c7man) c7status).errList
      = some [("http://backend/u.part002", 500)] ∧
    (Del.delete false "http://backend/u" (some c7man) c7status).cacheCleared
      = false ∧
    Del.delete true "http://backend/u" (some c7man) c7status = ⟨[], none, false⟩ := by
  have h := C7_delete "http://backend/u" c7man
    [c7entry "u", c7entry "u.part001", c7entry "u.part002"] c7status rfl
  exact ⟨rfl, h.1.trans (by decide), by decide, by decide, h.2.2.2⟩

/-! ## Root-redirect middleware (`WebDAVServer`)

`create_app` installs `root_redirect_middleware` only when the normalized
mount path differs from `/`; the middleware answers the root path with a
302 whose `Location` is `urllib.parse.quote(mount_path)` and forwards every
other path to the WsgiDAV app. -/

namespace Server

/-- Python `s.rstrip('/')`. -/
def rstripSlash (s : String) : String :=
  String.mk (s.data.reverse.dropWhile (fun c => decide (c = '/'))).reverse

/-- Mount-path normalization in `WebDAVServer.__init__` (`server.py:26`):
ensure a single trailing slash. -/
def normalizeMountPath (p : String) : String :=
  if ! pyEndsWith p "/" then rstripSlash p ++ "/" else p

/-- UTF-8 code units of one character, as numbers below 256. -/
def utf8Bytes (c : Char) : List Nat :=
  let n := c.toNat
  if n < 128 then [n]
  else if n < 2048 then [192 + n / 64, 128 + n % 64]
  else if n < 65536 then [224 + n / 4096, 128 + n / 64 % 64, 128 + n % 64]
  else [240 + n / 262144, 128 + n / 4096 % 64, 128 + n / 64 % 64, 128 + n % 64]

/-- Bytes `urllib.parse.quote` leaves unescaped with the default
`safe='/'`: ALPHA, DIGIT, `_`, `.`, `-`, `~` and `/`. -/
def quoteSafe (b : Nat) : Bool :=
  (65 ≤ b && b ≤ 90) || (97 ≤ b && b ≤ 122) || (48 ≤ b && b ≤ 57) ||
  b = 45 || b = 46 || b = 95 || b = 126 || b = 47

/-- Upper-case hex digit of a number below 16. -/
def hexDigit (n : Nat) : Char :=
  if n < 10 then Char.ofNat (48 + n) else Char.ofNat (55 + n)

/-- The output of `urllib.parse.quote` for one byte. -/
def quoteByteChars (b : Nat) : List Char :=
  if quoteSafe b then [Char.ofNat b] else ['%', hexDigit (b / 16), hexDigit (b % 16)]

/-- `urllib.parse.quote(s, safe='/')` (`server.py:8`, `server.py:86`). -/
def pyQuote (s : String) : String :=
  String.mk (((s.data.map utf8Bytes).flatten.map quoteByteChars).flatten)

/-- What the WSGI stack observably does with one request path. -/
inductive WsgiResult where
  | redirect (location : String)
  | passthrough
deriving DecidableEq

/-- `create_app` (`server.py:66-69`) composed with
`root_redirect_middleware` (`server.py:75-92`): for a non-root mount the
root path gets a 302 whose `Location` is the quoted mount path (the
middleware re-appends a trailing slash if missing), everything else is
forwarded unchanged. -/
def handleRequest (mountPathRaw : String) (pathInfo : String) : WsgiResult :=
  let mount := normalizeMountPath mountPathRaw
  if mount ≠ "/" then
    if pathInfo = "/" ∨ pathInfo = "" then
      WsgiResult.redirect
        (pyQuote (if ! pyEndsWith mount "/" then mount ++ "/" else mount))
    else WsgiResult.passthrough
  else WsgiResult.passthrough

end Server

/-- Appending a slash yields a string ending in a slash. -/
theorem pyEndsWith_append_slash (x : String) : pyEndsWith (x ++ "/") "/" = true := by
  simp [pyEndsWith, String.data_append, List.reverse_append]

/-- The normalized mount path always ends in a slash. -/
theorem normalizeMountPath_endsWith (raw : String) :
    pyEndsWith (Server.normalizeMountPath raw) "/" = true := by
  rw [Server.normalizeMountPath]
  cases hb : pyEndsWith raw "/" with
  | true => simp [hb]
  | false => simpa [hb] using pyEndsWith_append_slash (Server.rstripSlash raw)

/-- C9: with a non-root mount path, a request for `/` or the empty path is
answered with a 302 whose `Location` is the (percent-quoted) mount path —
which always carries a trailing slash — and every other path is passed to
the WebDAV application unchanged; with `MOUNT_PATH=/dav/`, `GET /` yields
`Location: /dav/`. -/
theorem C9_root_redirect (raw p : String)
    (hm : Server.normalizeMountPath raw ≠ "/") :
    ((p = "/" ∨ p = "") → Server.handleRequest raw p
        = Server.WsgiResult.redirect
            (Server.pyQuote (Server.normalizeMountPath raw))) ∧
    (¬(p = "/" ∨ p = "") →
      Server.handleRequest raw p = Server.WsgiResult.passthrough) ∧
    pyEndsWith (Server.normalizeMountPath raw) "/" = true ∧
    Server.handleRequest "/dav/" "/" = Server.WsgiResult.redirect "/dav/" := by
  refine ⟨fun hp => ?_, fun hnp => ?_, normalizeMountPath_endsWith raw, by decide⟩
  · rw [Server.handleRequest]
    rw [if_pos hm, if_pos hp, normalizeMountPath_endsWith raw]
    rfl
  · rw [Server.handleRequest]
    rw [if_pos hm, if_neg hnp]

/-- C9 witness: the `MOUNT_PATH=/dav/` scenario — the mount is non-root,
`GET /` is redirected to the quoted mount path, and that quoted path is
`/dav/` itself. -/
theorem C9_witness :
    Server.normalizeMountPath "/dav/" ≠ "/" ∧
    Server.handleRequest "/dav/" "/"
      = Server.WsgiResult.redirect
          (Server.pyQuote (Server.normalizeMountPath "/dav/")) ∧
    Server.pyQuote (Server.normalizeMountPath "/dav/") = "/dav/" :=
  ⟨by decide, (C9_root_redirect "/dav/" "/" (by decide)).1 (Or.inl rfl), by decide⟩
